import Mathlib

/-
Verification development for the `aumai-modeloci` repository.

The repository packages machine-learning model directories into
OCI-style tar archives (`src/aumai_modeloci/core.py`, `models.py`)
and unpacks / verifies them.  This file gives a shallow embedding of
the data model and of the packaging / unpacking / verification
pipeline, and proves (or refutes) the behavioural claims about it.

Modelling conventions:
* Python byte strings (`bytes`) and Python `str` values are both
  modelled as `List Nat` (for a `str`, the list of its UTF-8 bytes;
  UTF-8 encoding of distinct strings is injective, so equality of
  byte lists coincides with equality of the Python strings).
* SHA-256 (`hashlib.sha256`) is implemented in full, executably.
* JSON serialization follows pydantic v2 `model_dump_json`
  (serde_json): compact mode uses separators `,` and `:` without
  spaces; `indent=2` mode matches serde_json pretty printing.
* Numbers in JSON are modelled as integers (the repository only ever
  serializes integers; floating point metadata is out of scope).
-/

set_option maxRecDepth 100000

namespace ModelOCI

/-- A byte (0..255) of a Python `bytes` / UTF-8 encoded `str`. -/
abbrev Bytes := List Nat

/-- UTF-8 encoding of a single code point (faithful RFC 3629 layout). -/
def utf8Byte (n : Nat) : Bytes :=
  if n < 128 then [n]
  else if n < 2048 then [192 + n / 64, 128 + n % 64]
  else if n < 65536 then [224 + n / 4096, 128 + (n / 64) % 64, 128 + n % 64]
  else [240 + n / 262144, 128 + (n / 4096) % 64, 128 + (n / 64) % 64, 128 + n % 64]

/-- UTF-8 bytes of a Lean string literal (used to write concrete
Python strings such as file names and JSON keys). -/
def strBytes (s : String) : Bytes :=
  s.data.flatMap (fun c => utf8Byte c.toNat)

/-! ## SHA-256 (`hashlib.sha256`), implemented over byte lists. -/

/-- 2^32, the word modulus of SHA-256. -/
def M32 : Nat := 4294967296

/-- Right rotation of a 32-bit word. -/
def rotr (x n : Nat) : Nat := ((x >>> n) ||| (x <<< (32 - n))) % M32

/-- Bitwise complement of a 32-bit word. -/
def not32 (x : Nat) : Nat := 4294967295 - x

/-- The 64 SHA-256 round constants. -/
def sha256K : List Nat :=
  [1116352408, 1899447441, 3049323471, 3921009573, 961987163, 1508970993,
   2453635748, 2870763221, 3624381080, 310598401, 607225278, 1426881987,
   1925078388, 2162078206, 2614888103, 3248222580, 3835390401, 4022224774,
   264347078, 604807628, 770255983, 1249150122, 1555081692, 1996064986,
   2554220882, 2821834349, 2952996808, 3210313671, 3336571891, 3584528711,
   113926993, 338241895, 666307205, 773529912, 1294757372, 1396182291,
   1695183700, 1986661051, 2177026350, 2456956037, 2730485921, 2820302411,
   3259730800, 3345764771, 3516065817, 3600352804, 4094571909, 275423344,
   430227734, 506948616, 659060556, 883997877, 958139571, 1322822218,
   1537002063, 1747873779, 1955562222, 2024104815, 2227730452, 2361852424,
   2428436474, 2756734187, 3204031479, 3329325298]

/-- The initial SHA-256 state. -/
def sha256H0 : List Nat :=
  [1779033703, 3144134277, 1013904242, 2773480762,
   1359893119, 2600822924, 528734635, 1541459225]

/-- Big-endian bytes of `n`, `w` bytes wide. -/
def natBE : Nat → Nat → Bytes
  | 0, _ => []
  | w + 1, n => natBE w (n / 256) ++ [n % 256]

/-- Little-endian bytes of `n`, `w` bytes wide. -/
def natLE : Nat → Nat → Bytes
  | 0, _ => []
  | w + 1, n => n % 256 :: natLE w (n / 256)

/-- Group a byte list into big-endian 32-bit words. -/
def words32 : Bytes → List Nat
  | a :: b :: c :: d :: rest => (((a * 256 + b) * 256 + c) * 256 + d) :: words32 rest
  | _ => []

/-- SHA-256 message schedule extension from 16 to 64 words.
`acc` holds the words produced so far, in reverse order. -/
def sha256Extend : Nat → List Nat → List Nat
  | 0, acc => acc.reverse
  | k + 1, acc =>
      let w15 := acc.getD 14 0
      let w2 := acc.getD 1 0
      let w16 := acc.getD 15 0
      let w7 := acc.getD 6 0
      let s0 := (rotr w15 7) ^^^ (rotr w15 18) ^^^ (w15 >>> 3)
      let s1 := (rotr w2 17) ^^^ (rotr w2 19) ^^^ (w2 >>> 10)
      sha256Extend k (((w16 + s0 + w7 + s1) % M32) :: acc)

/-- One SHA-256 round. The state is the list `[a,b,c,d,e,f,g,h]`. -/
def sha256Round (st : List Nat) (kw : Nat × Nat) : List Nat :=
  let a := st.getD 0 0
  let b := st.getD 1 0
  let c := st.getD 2 0
  let d := st.getD 3 0
  let e := st.getD 4 0
  let f := st.getD 5 0
  let g := st.getD 6 0
  let h := st.getD 7 0
  let s1 := (rotr e 6) ^^^ (rotr e 11) ^^^ (rotr e 25)
  let ch := (e &&& f) ^^^ ((not32 e) &&& g)
  let t1 := (h + s1 + ch + kw.1 + kw.2) % M32
  let s0 := (rotr a 2) ^^^ (rotr a 13) ^^^ (rotr a 22)
  let mj := (a &&& b) ^^^ (a &&& c) ^^^ (b &&& c)
  let t2 := (s0 + mj) % M32
  [(t1 + t2) % M32, a, b, c, (d + t1) % M32, e, f, g]

/-- Compress one 64-byte block into the running state. -/
def sha256Block (st : List Nat) (block : Bytes) : List Nat :=
  let w := sha256Extend 48 (words32 block).reverse
  let st' := (sha256K.zip w).foldl sha256Round st
  (st.zip st').map (fun p => (p.1 + p.2) % M32)

/-- Split a byte list into 64-byte chunks (fuel-based so that the
kernel can evaluate it). -/
def chunks64Go : Nat → Bytes → List Bytes
  | 0, l => [l]
  | fuel + 1, l =>
      if l.length ≤ 64 then [l] else l.take 64 :: chunks64Go fuel (l.drop 64)

/-- Split a byte list into 64-byte chunks. -/
def chunks64 (l : Bytes) : List Bytes := chunks64Go l.length l

/-- SHA-256 padding: append `0x80`, zeros, and the 64-bit bit length. -/
def sha256Pad (msg : Bytes) : Bytes :=
  msg ++ [128] ++ List.replicate ((119 - msg.length % 64) % 64) 0
      ++ natBE 8 (msg.length * 8)

/-- SHA-256 digest of a byte list, as the list of its 32 digest bytes. -/
def sha256 (msg : Bytes) : Bytes :=
  ((chunks64 (sha256Pad msg)).foldl sha256Block sha256H0).flatMap (natBE 4)

/-- Lower-case hex digit byte for a value `0..15`. -/
def hexDigit (d : Nat) : Nat := if d < 10 then 48 + d else 87 + d

/-- Lower-case hex encoding of a byte list. -/
def hexBytes (l : Bytes) : Bytes :=
  l.flatMap (fun b => [hexDigit (b / 16), hexDigit (b % 16)])

/-- `core._sha256_bytes`: the string `sha256:<hex>` for the given data
(as its UTF-8/ASCII bytes). -/
def sha256_bytes (data : Bytes) : Bytes :=
  strBytes "sha256:" ++ hexBytes (sha256 data)

/-- Hex part alone, used for content-addressed blob file names. -/
def sha256Hex (data : Bytes) : Bytes := hexBytes (sha256 data)

/-! ## JSON values and pydantic v2 (serde_json) serialization.

`pydantic.BaseModel.model_dump_json()` serializes with separators
`,` and `:` and no spaces; `model_dump_json(indent=2)` matches
serde_json pretty printing with a two-space indent.  Strings are
emitted as UTF-8 with only `"`, `\` and control characters escaped.
JSON numbers are modelled as integers: the repository serializes only
integers (sizes and the schema version). -/

/-- A JSON value.  Strings are UTF-8 byte lists; objects are ordered
key/value lists (Python dicts preserve insertion order). -/
inductive Json where
  | null : Json
  | bool (b : Bool) : Json
  | num (i : Int) : Json
  | str (s : Bytes) : Json
  | arr (xs : List Json) : Json
  | obj (kvs : List (Bytes × Json)) : Json

/-- serde_json escaping of one byte of a UTF-8 string: `"` and `\`
get a backslash, the five short control escapes are used, all other
control bytes become `\u00XX`, everything else passes through. -/
def escByte (b : Nat) : Bytes :=
  if b = 34 then [92, 34]
  else if b = 92 then [92, 92]
  else if b = 8 then [92, 98]
  else if b = 9 then [92, 116]
  else if b = 10 then [92, 110]
  else if b = 12 then [92, 102]
  else if b = 13 then [92, 114]
  else if b < 32 then [92, 117, 48, 48, hexDigit (b / 16), hexDigit (b % 16)]
  else [b]

/-- JSON string-body escaping. -/
def escape (s : Bytes) : Bytes := s.flatMap escByte

/-- Base-10 digits, least significant first, with explicit fuel so
that the kernel can evaluate it (`natDigits_eq` relates it to
`Nat.digits`). -/
def natDigitsGo : Nat → Nat → List Nat
  | 0, _ => []
  | fuel + 1, n => if n = 0 then [] else n % 10 :: natDigitsGo fuel (n / 10)

theorem natDigits_eq : ∀ (fuel n : Nat), n ≤ fuel → natDigitsGo fuel n = Nat.digits 10 n := by
  intro fuel
  induction fuel with
  | zero =>
      intro n hn
      have : n = 0 := by omega
      simp [this, natDigitsGo]
  | succ fuel ih =>
      intro n hn
      by_cases h0 : n = 0
      · simp [h0, natDigitsGo]
      · have hlt : n / 10 < n := Nat.div_lt_self (by omega) (by norm_num)
        rw [natDigitsGo, if_neg h0, ih (n / 10) (by omega)]
        conv_rhs => rw [Nat.digits_def' (by norm_num : 1 < 10) (show 0 < n by omega)]

/-- Decimal digits of a natural number, most significant first. -/
def serNat (n : Nat) : Bytes :=
  if n = 0 then [48] else (natDigitsGo n n).reverse.map (fun d => 48 + d)

/-- `serNat` in terms of `Nat.digits` (for proofs). -/
theorem serNat_digits (n : Nat) :
    serNat n = if n = 0 then [48] else (Nat.digits 10 n).reverse.map (fun d => 48 + d) := by
  rw [serNat, natDigits_eq n n le_rfl]

/-- Decimal serialization of an integer. -/
def serInt : Int → Bytes
  | Int.ofNat n => serNat n
  | Int.negSucc n => 45 :: serNat (n + 1)

/-- The newline-plus-indent emitted by pretty mode at depth `d`
(nothing in compact mode). -/
def nlB (p : Bool) (d : Nat) : Bytes :=
  if p then 10 :: List.replicate (2 * d) 32 else []

/-- The key/value separator: `": "` in pretty mode, `":"` compact. -/
def colonB (p : Bool) : Bytes := if p then [58, 32] else [58]

mutual

/-- Serialize a JSON value; `p` selects pretty (`indent=2`) mode and
`d` is the current depth. -/
def Json.ser (p : Bool) (d : Nat) : Json → Bytes
  | .null => [110, 117, 108, 108]
  | .bool true => [116, 114, 117, 101]
  | .bool false => [102, 97, 108, 115, 101]
  | .num i => serInt i
  | .str s => 34 :: (escape s ++ [34])
  | .arr [] => [91, 93]
  | .arr (x :: xs) =>
      91 :: (nlB p (d + 1) ++ Json.ser p (d + 1) x ++ serElems p (d + 1) xs
        ++ nlB p d ++ [93])
  | .obj [] => [123, 125]
  | .obj (kv :: kvs) =>
      123 :: (nlB p (d + 1) ++ serMember p (d + 1) kv ++ serMembers p (d + 1) kvs
        ++ nlB p d ++ [125])

/-- Serialize the tail elements of an array (each preceded by `,`). -/
def serElems (p : Bool) (d : Nat) : List Json → Bytes
  | [] => []
  | x :: xs => 44 :: (nlB p d ++ Json.ser p d x ++ serElems p d xs)

/-- Serialize one object member `"key": value`. -/
def serMember (p : Bool) (d : Nat) : Bytes × Json → Bytes
  | (k, v) => 34 :: (escape k ++ [34] ++ colonB p ++ Json.ser p d v)

/-- Serialize the tail members of an object (each preceded by `,`). -/
def serMembers (p : Bool) (d : Nat) : List (Bytes × Json) → Bytes
  | [] => []
  | kv :: kvs => 44 :: (nlB p d ++ serMember p d kv ++ serMembers p d kvs)

end

/-- Compact serialization (`model_dump_json()`). -/
def Json.dumpC (v : Json) : Bytes := Json.ser false 0 v

/-- Pretty serialization (`model_dump_json(indent=2)`). -/
def Json.dumpP (v : Json) : Bytes := Json.ser true 0 v

/-! ## A JSON parser modelling `json.loads`.

The parser is fuel-based (hence structurally recursive and fully
reducible by the kernel) and written with if-chains so that its
reductions stay tractable in proofs. -/

/-- JSON whitespace bytes. -/
def isWsByte (b : Nat) : Bool := b = 32 || b = 9 || b = 10 || b = 13

/-- ASCII decimal digit test. -/
def isDigitByte (b : Nat) : Bool := 48 ≤ b && b ≤ 57

/-- Drop leading JSON whitespace. -/
def skipWs : Bytes → Bytes
  | [] => []
  | b :: s => if isWsByte b then skipWs s else b :: s

/-- `w` consists of whitespace only. -/
def wsOnly (w : Bytes) : Bool := w.all isWsByte

/-- The first byte of `r`, if any, is not a decimal digit. -/
def noDigitHead (r : Bytes) : Bool :=
  match r with
  | [] => true
  | b :: _ => !isDigitByte b

/-- Consume an expected literal byte sequence. -/
def expectBytes : Bytes → Bytes → Option Bytes
  | [], s => some s
  | _ :: _, [] => none
  | b :: bs, c :: s => if c = b then expectBytes bs s else none

/-- Value of one hex digit byte. -/
def hexVal (b : Nat) : Option Nat :=
  if 48 ≤ b ∧ b ≤ 57 then some (b - 48)
  else if 97 ≤ b ∧ b ≤ 102 then some (b - 87)
  else if 65 ≤ b ∧ b ≤ 70 then some (b - 55)
  else none

/-- Short escape decoding (`\"`, `\\`, `\/`, `\b`, `\t`, `\n`, `\f`,
`\r`). -/
def unescChar (e : Nat) : Option Nat :=
  if e = 34 then some 34
  else if e = 92 then some 92
  else if e = 47 then some 47
  else if e = 98 then some 8
  else if e = 116 then some 9
  else if e = 110 then some 10
  else if e = 102 then some 12
  else if e = 114 then some 13
  else none

/-- Parse a JSON string body (after the opening quote), returning the
decoded bytes and the remaining input. -/
def pStrAux : Bytes → Option (Bytes × Bytes)
  | [] => none
  | b :: s =>
    if b = 34 then some ([], s)
    else if b = 92 then
      match s with
      | [] => none
      | e :: s1 =>
        if e = 117 then
          match s1 with
          | h1 :: h2 :: h3 :: h4 :: s2 =>
            match hexVal h1, hexVal h2, hexVal h3, hexVal h4 with
            | some d1, some d2, some d3, some d4 =>
              match pStrAux s2 with
              | some r => some (utf8Byte (((d1 * 16 + d2) * 16 + d3) * 16 + d4) ++ r.1, r.2)
              | none => none
            | _, _, _, _ => none
          | _ => none
        else
          match unescChar e with
          | some c =>
            match pStrAux s1 with
            | some r => some (c :: r.1, r.2)
            | none => none
          | none => none
    else
      match pStrAux s with
      | some r => some (b :: r.1, r.2)
      | none => none

/-- Parse a run of decimal digits, accumulating into `acc`. -/
def pNatAux : Bytes → Nat → Nat × Bytes
  | [], acc => (acc, [])
  | b :: s, acc =>
      if isDigitByte b then pNatAux s (acc * 10 + (b - 48)) else (acc, b :: s)

mutual

/-- Parse one JSON value (modulo leading whitespace). -/
def pVal : Nat → Bytes → Option (Json × Bytes)
  | 0, _ => none
  | fuel + 1, s =>
    match skipWs s with
    | [] => none
    | b :: r =>
      if b = 110 then (expectBytes [117, 108, 108] r).map (fun t => (.null, t))
      else if b = 116 then (expectBytes [114, 117, 101] r).map (fun t => (.bool true, t))
      else if b = 102 then (expectBytes [97, 108, 115, 101] r).map (fun t => (.bool false, t))
      else if b = 34 then (pStrAux r).map (fun q => (.str q.1, q.2))
      else if b = 91 then pArrFirst fuel r
      else if b = 123 then pObjFirst fuel r
      else if b = 45 then
        match r with
        | c :: r2 =>
          if isDigitByte c then
            some (.num (-((pNatAux r2 (c - 48)).1 : Int)), (pNatAux r2 (c - 48)).2)
          else none
        | [] => none
      else if isDigitByte b then
        some (.num ((pNatAux r (b - 48)).1 : Int), (pNatAux r (b - 48)).2)
      else none

/-- Parse the part of an array after `[`. -/
def pArrFirst : Nat → Bytes → Option (Json × Bytes)
  | 0, _ => none
  | fuel + 1, s =>
    match skipWs s with
    | [] => none
    | b :: r =>
      if b = 93 then some (.arr [], r)
      else
        match pVal fuel (b :: r) with
        | some (v, r1) =>
          match pArrRest fuel r1 with
          | some (vs, r2) => some (.arr (v :: vs), r2)
          | none => none
        | none => none

/-- Parse `, value`* `]` after an array element. -/
def pArrRest : Nat → Bytes → Option (List Json × Bytes)
  | 0, _ => none
  | fuel + 1, s =>
    match skipWs s with
    | [] => none
    | b :: r =>
      if b = 93 then some ([], r)
      else if b = 44 then
        match pVal fuel r with
        | some (v, r1) =>
          match pArrRest fuel r1 with
          | some (vs, r2) => some (v :: vs, r2)
          | none => none
        | none => none
      else none

/-- Parse one `"key": value` member (input already whitespace-free at
the front). -/
def pMember : Nat → Bytes → Option ((Bytes × Json) × Bytes)
  | 0, _ => none
  | fuel + 1, s =>
    match s with
    | [] => none
    | b :: r =>
      if b = 34 then
        match pStrAux r with
        | some (k, r1) =>
          match skipWs r1 with
          | [] => none
          | c :: r2 =>
            if c = 58 then
              match pVal fuel r2 with
              | some (v, r3) => some ((k, v), r3)
              | none => none
            else none
        | none => none
      else none

/-- Parse the part of an object after `{`. -/
def pObjFirst : Nat → Bytes → Option (Json × Bytes)
  | 0, _ => none
  | fuel + 1, s =>
    match skipWs s with
    | [] => none
    | b :: r =>
      if b = 125 then some (.obj [], r)
      else
        match pMember fuel (b :: r) with
        | some (kv, r1) =>
          match pObjRest fuel r1 with
          | some (kvs, r2) => some (.obj (kv :: kvs), r2)
          | none => none
        | none => none

/-- Parse `, "key": value`* `}` after an object member. -/
def pObjRest : Nat → Bytes → Option (List (Bytes × Json) × Bytes)
  | 0, _ => none
  | fuel + 1, s =>
    match skipWs s with
    | [] => none
    | b :: r =>
      if b = 125 then some ([], r)
      else if b = 44 then
        match pMember fuel (skipWs r) with
        | some (kv, r1) =>
          match pObjRest fuel r1 with
          | some (kvs, r2) => some (kv :: kvs, r2)
          | none => none
        | none => none
      else none

end

/-- `json.loads`: parse a complete document; trailing content other
than whitespace is an error.  The fuel `2 * length + 4` is sufficient
for every serialized value (`jsize_le_ser`). -/
def jsonLoads (s : Bytes) : Option Json :=
  match pVal (2 * s.length + 4) s with
  | some (v, r) => if wsOnly r then some v else none
  | none => none

/-- Python-dict lookup on an ordered key/value list built from JSON
(duplicate keys: the last occurrence wins, as in `json.loads`). -/
def lookLast : List (Bytes × Json) → Bytes → Option Json
  | [], _ => none
  | (k, v) :: rest, key =>
    match lookLast rest key with
    | some r => some r
    | none => if k = key then some v else none

/-! ## Parser/serializer round trip. -/

mutual

/-- Fuel measure of a value: an upper bound on the parser fuel needed
to parse its serialization. -/
def jsize : Json → Nat
  | .arr xs => 1 + jsizeElems xs
  | .obj kvs => 1 + jsizeMembers kvs
  | _ => 1

/-- Fuel measure of an array tail. -/
def jsizeElems : List Json → Nat
  | [] => 1
  | x :: xs => 1 + jsize x + jsizeElems xs

/-- Fuel measure of an object tail. -/
def jsizeMembers : List (Bytes × Json) → Nat
  | [] => 1
  | kv :: kvs => 1 + jsize kv.2 + jsizeMembers kvs

end

theorem jsize_pos (v : Json) : 1 ≤ jsize v := by
  cases v <;> simp [jsize]

theorem jsizeElems_pos (xs : List Json) : 1 ≤ jsizeElems xs := by
  cases xs <;> simp [jsizeElems] <;> omega

theorem jsizeMembers_pos (kvs : List (Bytes × Json)) : 1 ≤ jsizeMembers kvs := by
  cases kvs <;> simp [jsizeMembers] <;> omega

theorem skipWs_not_ws {b : Nat} (r : Bytes) (h : isWsByte b = false) :
    skipWs (b :: r) = b :: r := by
  simp [skipWs, h]

theorem skipWs_ws_append {w : Bytes} (s : Bytes) (h : wsOnly w = true) :
    skipWs (w ++ s) = skipWs s := by
  induction w with
  | nil => rfl
  | cons b t ih =>
      simp only [wsOnly, List.all_cons, Bool.and_eq_true] at h
      simp [skipWs, h.1, ih (by simp [wsOnly, h.2])]

theorem wsOnly_nlB (p : Bool) (d : Nat) : wsOnly (nlB p d) = true := by
  cases p
  · rfl
  · simp [nlB, wsOnly, List.all_eq_true]
    exact ⟨by decide, Or.inr (by decide)⟩

theorem skipWs_nlB (p : Bool) (d : Nat) (s : Bytes) :
    skipWs (nlB p d ++ s) = skipWs s :=
  skipWs_ws_append s (wsOnly_nlB p d)

theorem expectBytes_append (bs s : Bytes) : expectBytes bs (bs ++ s) = some s := by
  induction bs with
  | nil => rfl
  | cons b t ih => simp [expectBytes, ih]

theorem pNatAux_stop {r : Bytes} (acc : Nat) (h : noDigitHead r = true) :
    pNatAux r acc = (acc, r) := by
  cases r with
  | nil => rfl
  | cons b t =>
      simp only [noDigitHead, Bool.not_eq_true'] at h
      simp [pNatAux, h]

theorem isDigitByte_digit {d : Nat} (h : d < 10) : isDigitByte (48 + d) = true := by
  simp only [isDigitByte, Bool.and_eq_true, decide_eq_true_eq]
  omega

theorem pNatAux_msd (m : List Nat) (hm : ∀ d ∈ m, d < 10) :
    ∀ (acc : Nat) (rest : Bytes), noDigitHead rest = true →
    pNatAux (m.map (fun d => 48 + d) ++ rest) acc
      = (m.foldl (fun a d => a * 10 + d) acc, rest) := by
  induction m with
  | nil => intro acc rest h; simpa using pNatAux_stop acc h
  | cons d t ih =>
      intro acc rest h
      have hd : d < 10 := hm d (List.mem_cons_self d t)
      have ht : ∀ x ∈ t, x < 10 := fun x hx => hm x (List.mem_cons_of_mem d hx)
      have h48 : 48 + d - 48 = d := by omega
      simp [pNatAux, isDigitByte_digit hd, h48, ih ht (acc * 10 + d) rest h]

theorem foldl_reverse_digits (l : List Nat) :
    ∀ acc : Nat, l.reverse.foldl (fun a d => a * 10 + d) acc
      = acc * 10 ^ l.length + Nat.ofDigits 10 l := by
  induction l with
  | nil => intro acc; simp
  | cons d t ih =>
      intro acc
      simp only [List.reverse_cons, List.foldl_append, List.foldl_cons, List.foldl_nil, ih,
        List.length_cons, Nat.ofDigits_cons]
      ring

/-- Decimal digit list round trip: parsing the serialization of `n`
recovers `n`. -/
theorem pNatAux_serNat (n : Nat) (rest : Bytes) (h : noDigitHead rest = true) :
    pNatAux (serNat n ++ rest) 0 = (n, rest) := by
  by_cases h0 : n = 0
  · subst h0
    have : pNatAux ([48] ++ rest) 0 = pNatAux rest 0 := by
      simp [pNatAux, isDigitByte]
    rw [serNat_digits, if_pos (by trivial), this, pNatAux_stop 0 h]
  · rw [serNat_digits, if_neg h0]
    have hlt : ∀ d ∈ (Nat.digits 10 n).reverse, d < 10 := by
      intro d hd
      exact Nat.digits_lt_base (by norm_num) (List.mem_reverse.mp hd)
    rw [pNatAux_msd _ hlt 0 rest h, foldl_reverse_digits]
    simp [Nat.ofDigits_digits]

/-- The serialization of a nonzero natural starts with a digit byte. -/
theorem serNat_head (n : Nat) :
    ∃ d t, serNat n = (48 + d) :: t ∧ d < 10 := by
  by_cases h0 : n = 0
  · exact ⟨0, [], by simp [serNat_digits, h0], by norm_num⟩
  · rw [serNat_digits, if_neg h0]
    have hne : Nat.digits 10 n ≠ [] := Nat.digits_ne_nil_iff_ne_zero.mpr h0
    have hne' : (Nat.digits 10 n).reverse ≠ [] := by simpa using hne
    obtain ⟨d, m, hm⟩ := List.exists_cons_of_ne_nil hne'
    refine ⟨d, m.map (fun d => 48 + d), by rw [hm]; simp, ?_⟩
    exact Nat.digits_lt_base (by norm_num) (List.mem_reverse.mp (by rw [hm]; exact List.mem_cons_self d m))

theorem hexVal_hexDigit {x : Nat} (h : x < 16) : hexVal (hexDigit x) = some x := by
  interval_cases x <;> rfl

/-- String-body escaping round trip: un-escaping the escaped bytes up
to the closing quote recovers the original bytes and the rest. -/
theorem pStrAux_escape (s : Bytes) :
    ∀ rest, pStrAux (escape s ++ 34 :: rest) = some (s, rest) := by
  induction s with
  | nil =>
      intro rest
      rw [show escape [] ++ 34 :: rest = 34 :: rest by simp [escape]]
      rw [pStrAux.eq_def]
      simp
  | cons b t ih =>
      intro rest
      have hesc : escape (b :: t) ++ 34 :: rest
          = escByte b ++ (escape t ++ 34 :: rest) := by
        simp [escape]
      rw [hesc]
      by_cases h34 : b = 34
      · subst h34
        rw [show escByte 34 = [92, 34] from rfl]
        rw [List.cons_append, List.cons_append, pStrAux.eq_def]
        simp [unescChar, ih rest]
      by_cases h92 : b = 92
      · subst h92
        rw [show escByte 92 = [92, 92] from rfl]
        rw [List.cons_append, List.cons_append, pStrAux.eq_def]
        simp [unescChar, ih rest]
      by_cases h8 : b = 8
      · subst h8
        rw [show escByte 8 = [92, 98] from rfl]
        rw [List.cons_append, List.cons_append, pStrAux.eq_def]
        simp [unescChar, ih rest]
      by_cases h9 : b = 9
      · subst h9
        rw [show escByte 9 = [92, 116] from rfl]
        rw [List.cons_append, List.cons_append, pStrAux.eq_def]
        simp [unescChar, ih rest]
      by_cases h10 : b = 10
      · subst h10
        rw [show escByte 10 = [92, 110] from rfl]
        rw [List.cons_append, List.cons_append, pStrAux.eq_def]
        simp [unescChar, ih rest]
      by_cases h12 : b = 12
      · subst h12
        rw [show escByte 12 = [92, 102] from rfl]
        rw [List.cons_append, List.cons_append, pStrAux.eq_def]
        simp [unescChar, ih rest]
      by_cases h13 : b = 13
      · subst h13
        rw [show escByte 13 = [92, 114] from rfl]
        rw [List.cons_append, List.cons_append, pStrAux.eq_def]
        simp [unescChar, ih rest]
      by_cases hc : b < 32
      · have hb : escByte b = [92, 117, 48, 48, hexDigit (b / 16), hexDigit (b % 16)] := by
          simp [escByte, h34, h92, h8, h9, h10, h12, h13, hc]
        rw [hb]
        have hv1 : hexVal (hexDigit (b / 16)) = some (b / 16) :=
          hexVal_hexDigit (by omega)
        have hv2 : hexVal (hexDigit (b % 16)) = some (b % 16) :=
          hexVal_hexDigit (by omega)
        have hcp : ((0 * 16 + 0) * 16 + b / 16) * 16 + b % 16 = b := by omega
        have hu : utf8Byte b = [b] := by simp [utf8Byte]; omega
        simp only [List.cons_append]
        rw [pStrAux.eq_def]
        simp [show hexVal 48 = some 0 from rfl, hv1, hv2, ih rest, hcp, hu]
        rw [show b / 16 * 16 + b % 16 = b by omega, hu]
        simp
      · have hb : escByte b = [b] := by
          simp [escByte, h34, h92, h8, h9, h10, h12, h13, hc]
        rw [hb]
        simp only [List.cons_append, List.nil_append]
        rw [pStrAux.eq_def]
        simp [h34, h92, ih rest]

/-- Every serialized value starts with a byte that is not whitespace,
not `]` and not `,`. -/
theorem ser_head (p : Bool) (d : Nat) (v : Json) :
    ∃ b t, Json.ser p d v = b :: t ∧ isWsByte b = false ∧ b ≠ 93 ∧ b ≠ 44 := by
  cases v with
  | null => exact ⟨110, _, rfl, by decide, by decide, by decide⟩
  | bool b =>
      cases b
      · exact ⟨102, _, rfl, by decide, by decide, by decide⟩
      · exact ⟨116, _, rfl, by decide, by decide, by decide⟩
  | num i =>
      cases i with
      | ofNat n =>
          obtain ⟨dd, tt, hn, hd⟩ := serNat_head n
          refine ⟨48 + dd, tt, by simp [Json.ser, serInt, hn], ?_, by omega, by omega⟩
          simp [isWsByte]
          omega
      | negSucc n => exact ⟨45, _, rfl, by decide, by decide, by decide⟩
  | str s => exact ⟨34, _, rfl, by decide, by decide, by decide⟩
  | arr xs => cases xs <;> exact ⟨91, _, rfl, by decide, by decide, by decide⟩
  | obj kvs => cases kvs <;> exact ⟨123, _, rfl, by decide, by decide, by decide⟩

theorem noDigitHead_nlB (p : Bool) (dd : Nat) (s : Bytes)
    (h : noDigitHead s = true) : noDigitHead (nlB p dd ++ s) = true := by
  cases p
  · simpa [nlB]
  · simp [nlB, noDigitHead, isDigitByte]

theorem noDigitHead_serElems (p : Bool) (dd : Nat) (xs : List Json) (s : Bytes)
    (h : noDigitHead s = true) : noDigitHead (serElems p dd xs ++ s) = true := by
  cases xs
  · simpa [serElems]
  · simp [serElems, noDigitHead, isDigitByte]

theorem noDigitHead_serMembers (p : Bool) (dd : Nat) (kvs : List (Bytes × Json)) (s : Bytes)
    (h : noDigitHead s = true) : noDigitHead (serMembers p dd kvs ++ s) = true := by
  cases kvs
  · simpa [serMembers]
  · simp [serMembers, noDigitHead, isDigitByte]

theorem noDigitHead_93 (rest : Bytes) : noDigitHead (93 :: rest) = true := by
  simp [noDigitHead, isDigitByte]

theorem noDigitHead_125 (rest : Bytes) : noDigitHead (125 :: rest) = true := by
  simp [noDigitHead, isDigitByte]

/-- Parsing the serialization of an integer (with optional leading
whitespace) recovers it. -/
theorem pVal_serInt (f : Nat) (i : Int) (w rest : Bytes)
    (hw : wsOnly w = true) (h : noDigitHead rest = true) :
    pVal (f + 1) (w ++ (serInt i ++ rest)) = some (.num i, rest) := by
  cases i with
  | ofNat n =>
      obtain ⟨dd, tt, hn, hd⟩ := serNat_head n
      have hpn : pNatAux (serNat n ++ rest) 0 = (n, rest) := pNatAux_serNat n rest h
      rw [hn, show ((48 + dd) :: tt) ++ rest = (48 + dd) :: (tt ++ rest) by simp] at hpn
      simp [pNatAux, isDigitByte_digit hd, show 48 + dd - 48 = dd by omega] at hpn
      rw [pVal.eq_def]
      simp only []
      rw [skipWs_ws_append _ hw]
      rw [show serInt (Int.ofNat n) ++ rest = (48 + dd) :: (tt ++ rest) by
        simp [serInt]; rw [hn]; simp]
      rw [skipWs_not_ws _ (by simp [isWsByte]; omega)]
      simp only []
      rw [if_neg (by omega), if_neg (by omega), if_neg (by omega), if_neg (by omega),
          if_neg (by omega), if_neg (by omega), if_neg (by omega),
          if_pos (isDigitByte_digit hd)]
      rw [show 48 + dd - 48 = dd by omega, hpn]
      simp
  | negSucc n =>
      obtain ⟨dd, tt, hn, hd⟩ := serNat_head (n + 1)
      have hpn : pNatAux (serNat (n + 1) ++ rest) 0 = (n + 1, rest) :=
        pNatAux_serNat _ rest h
      rw [hn, show ((48 + dd) :: tt) ++ rest = (48 + dd) :: (tt ++ rest) by simp] at hpn
      simp [pNatAux, isDigitByte_digit hd, show 48 + dd - 48 = dd by omega] at hpn
      rw [pVal.eq_def]
      simp only []
      rw [skipWs_ws_append _ hw]
      rw [show serInt (Int.negSucc n) ++ rest = 45 :: (serNat (n + 1) ++ rest) by
        simp [serInt]]
      rw [skipWs_not_ws _ (by decide)]
      simp only []
      rw [if_neg (by decide), if_neg (by decide), if_neg (by decide), if_neg (by decide),
          if_neg (by decide), if_neg (by decide), if_pos (by trivial)]
      rw [show serNat (n + 1) ++ rest = (48 + dd) :: (tt ++ rest) by rw [hn]; simp]
      simp only []
      rw [if_pos (isDigitByte_digit hd)]
      rw [show 48 + dd - 48 = dd by omega, hpn]
      simp [Int.negSucc_eq]

/-- Round-trip property of value parsing, bounded by the measure `n`. -/
def RTVal (n : Nat) : Prop :=
  ∀ v : Json, jsize v ≤ n → ∀ f, jsize v ≤ f →
    ∀ (p : Bool) (d : Nat) (w rest : Bytes), wsOnly w = true → noDigitHead rest = true →
    pVal f (w ++ (Json.ser p d v ++ rest)) = some (v, rest)

/-- Round-trip property of array-tail parsing. -/
def RTArr (n : Nat) : Prop :=
  ∀ xs : List Json, jsizeElems xs ≤ n → ∀ f, jsizeElems xs ≤ f →
    ∀ (p : Bool) (di dc : Nat) (rest : Bytes),
    pArrRest f (serElems p di xs ++ (nlB p dc ++ 93 :: rest)) = some (xs, rest)

/-- Round-trip property of object-tail parsing. -/
def RTObj (n : Nat) : Prop :=
  ∀ kvs : List (Bytes × Json), jsizeMembers kvs ≤ n → ∀ f, jsizeMembers kvs ≤ f →
    ∀ (p : Bool) (di dc : Nat) (rest : Bytes),
    pObjRest f (serMembers p di kvs ++ (nlB p dc ++ 125 :: rest)) = some (kvs, rest)

/-- The parser inverts the serializer (both compact and `indent=2`
modes), by induction on the fuel measure. -/
theorem roundTrip : ∀ n : Nat, RTVal n ∧ RTArr n ∧ RTObj n := by
  intro n
  induction n with
  | zero =>
      refine ⟨?_, ?_, ?_⟩
      · intro v hv; have := jsize_pos v; omega
      · intro xs hxs; have := jsizeElems_pos xs; omega
      · intro kvs hk; have := jsizeMembers_pos kvs; omega
  | succ n ih =>
      obtain ⟨ihV, ihA, ihO⟩ := ih
      have hmem : ∀ (k : Bytes) (v : Json), jsize v ≤ n →
          ∀ f, jsize v + 1 ≤ f → ∀ (p : Bool) (d : Nat) (tail : Bytes),
          noDigitHead tail = true →
          pMember f (serMember p d (k, v) ++ tail) = some ((k, v), tail) := by
        intro k v hvn f hf p d tail htail
        cases f with
        | zero => omega
        | succ f1 =>
            rw [show serMember p d (k, v) ++ tail
                = 34 :: (escape k ++ 34 :: (colonB p ++ (Json.ser p d v ++ tail))) by
              simp [serMember]]
            rw [pMember.eq_def]
            simp only []
            rw [if_pos (by trivial), pStrAux_escape]
            simp only []
            cases p
            · rw [show colonB false ++ (Json.ser false d v ++ tail)
                  = 58 :: (Json.ser false d v ++ tail) by simp [colonB]]
              rw [skipWs_not_ws _ (by decide)]
              simp only []
              rw [if_pos (by trivial)]
              have h2 := ihV v hvn f1 (by omega) false d [] tail rfl htail
              rw [List.nil_append] at h2
              rw [h2]
            · rw [show colonB true ++ (Json.ser true d v ++ tail)
                  = 58 :: ([32] ++ (Json.ser true d v ++ tail)) by simp [colonB]]
              rw [skipWs_not_ws _ (by decide)]
              simp only []
              rw [if_pos (by trivial)]
              rw [ihV v hvn f1 (by omega) true d [32] tail (by decide) htail]
      refine ⟨?_, ?_, ?_⟩
      · -- values
        intro v hvn f hvf p d w rest hw hrest
        cases v with
        | null =>
            cases f with
            | zero => simp [jsize] at hvf
            | succ f1 =>
                rw [pVal.eq_def]
                simp only []
                rw [skipWs_ws_append _ hw]
                rw [show Json.ser p d .null ++ rest = 110 :: ([117, 108, 108] ++ rest) by
                  simp [Json.ser]]
                rw [skipWs_not_ws _ (by decide)]
                simp only []
                rw [if_pos (by trivial)]
                simp [expectBytes]
        | bool b =>
            cases f with
            | zero => simp [jsize] at hvf
            | succ f1 =>
                cases b
                · rw [pVal.eq_def]
                  simp only []
                  rw [skipWs_ws_append _ hw]
                  rw [show Json.ser p d (.bool false) ++ rest
                      = 102 :: ([97, 108, 115, 101] ++ rest) by simp [Json.ser]]
                  rw [skipWs_not_ws _ (by decide)]
                  simp only []
                  rw [if_neg (by decide), if_neg (by decide), if_pos (by trivial)]
                  simp [expectBytes]
                · rw [pVal.eq_def]
                  simp only []
                  rw [skipWs_ws_append _ hw]
                  rw [show Json.ser p d (.bool true) ++ rest
                      = 116 :: ([114, 117, 101] ++ rest) by simp [Json.ser]]
                  rw [skipWs_not_ws _ (by decide)]
                  simp only []
                  rw [if_neg (by decide), if_pos (by trivial)]
                  simp [expectBytes]
        | num i =>
            cases f with
            | zero => simp [jsize] at hvf
            | succ f1 =>
                have : Json.ser p d (.num i) = serInt i := by simp [Json.ser]
                rw [this]
                exact pVal_serInt f1 i w rest hw hrest
        | str s =>
            cases f with
            | zero => simp [jsize] at hvf
            | succ f1 =>
                rw [pVal.eq_def]
                simp only []
                rw [skipWs_ws_append _ hw]
                rw [show Json.ser p d (.str s) ++ rest
                    = 34 :: (escape s ++ 34 :: rest) by simp [Json.ser]]
                rw [skipWs_not_ws _ (by decide)]
                simp only []
                rw [if_neg (by decide), if_neg (by decide), if_neg (by decide), if_pos (by trivial)]
                rw [pStrAux_escape]
                rfl
        | arr xs =>
            cases xs with
            | nil =>
                have hf2 : 2 ≤ f := by simpa [jsize, jsizeElems] using hvf
                obtain ⟨f2, rfl⟩ : ∃ f2, f = f2 + 2 := ⟨f - 2, by omega⟩
                rw [pVal.eq_def]
                simp only []
                rw [skipWs_ws_append _ hw]
                rw [show Json.ser p d (.arr []) ++ rest = 91 :: ([93] ++ rest) by
                  simp [Json.ser]]
                rw [skipWs_not_ws _ (by decide)]
                simp only []
                rw [if_neg (by decide), if_neg (by decide), if_neg (by decide),
                    if_neg (by decide), if_pos (by trivial)]
                rw [pArrFirst.eq_def]
                simp only []
                rw [show ([93] : Bytes) ++ rest = 93 :: rest by simp]
                rw [skipWs_not_ws _ (by decide)]
                simp only []
                rw [if_pos (by trivial)]
            | cons x xs =>
                have hx1 : 1 ≤ jsize x := jsize_pos x
                have hxs1 : 1 ≤ jsizeElems xs := jsizeElems_pos xs
                have hsz : jsize (.arr (x :: xs)) = 2 + jsize x + jsizeElems xs := by
                  simp [jsize, jsizeElems]; ring
                obtain ⟨f2, rfl⟩ : ∃ f2, f = f2 + 2 := ⟨f - 2, by omega⟩
                have hfx : jsize x ≤ f2 := by omega
                have hfxs : jsizeElems xs ≤ f2 := by omega
                rw [pVal.eq_def]
                simp only []
                rw [skipWs_ws_append _ hw]
                obtain ⟨b, t, hbt, hbw, hb93, hb44⟩ := ser_head p (d + 1) x
                rw [show Json.ser p d (.arr (x :: xs)) ++ rest
                    = 91 :: (nlB p (d + 1) ++ (Json.ser p (d + 1) x
                        ++ (serElems p (d + 1) xs ++ (nlB p d ++ 93 :: rest)))) by
                  simp [Json.ser]]
                rw [skipWs_not_ws _ (by decide)]
                simp only []
                rw [if_neg (by decide), if_neg (by decide), if_neg (by decide),
                    if_neg (by decide), if_pos (by trivial)]
                rw [pArrFirst.eq_def]
                simp only []
                rw [skipWs_nlB, hbt]
                rw [show (b :: t) ++ (serElems p (d + 1) xs ++ (nlB p d ++ 93 :: rest))
                    = b :: (t ++ (serElems p (d + 1) xs ++ (nlB p d ++ 93 :: rest))) by simp]
                rw [skipWs_not_ws _ hbw]
                simp only []
                rw [if_neg hb93]
                have hrest2 : noDigitHead (serElems p (d + 1) xs ++ (nlB p d ++ 93 :: rest))
                    = true :=
                  noDigitHead_serElems _ _ _ _ (noDigitHead_nlB _ _ _ (noDigitHead_93 rest))
                have hV := ihV x (by omega) f2 hfx p (d + 1) []
                  (serElems p (d + 1) xs ++ (nlB p d ++ 93 :: rest)) rfl hrest2
                rw [List.nil_append, hbt] at hV
                rw [show b :: (t ++ (serElems p (d + 1) xs ++ (nlB p d ++ 93 :: rest)))
                    = (b :: t) ++ (serElems p (d + 1) xs ++ (nlB p d ++ 93 :: rest)) by simp]
                rw [hV]
                simp only []
                rw [ihA xs (by omega) f2 hfxs p (d + 1) d rest]
        | obj kvs =>
            cases kvs with
            | nil =>
                have hf2 : 2 ≤ f := by simpa [jsize, jsizeMembers] using hvf
                obtain ⟨f2, rfl⟩ : ∃ f2, f = f2 + 2 := ⟨f - 2, by omega⟩
                rw [pVal.eq_def]
                simp only []
                rw [skipWs_ws_append _ hw]
                rw [show Json.ser p d (.obj []) ++ rest = 123 :: ([125] ++ rest) by
                  simp [Json.ser]]
                rw [skipWs_not_ws _ (by decide)]
                simp only []
                rw [if_neg (by decide), if_neg (by decide), if_neg (by decide),
                    if_neg (by decide), if_neg (by decide), if_pos (by trivial)]
                rw [pObjFirst.eq_def]
                simp only []
                rw [show ([125] : Bytes) ++ rest = 125 :: rest by simp]
                rw [skipWs_not_ws _ (by decide)]
                simp only []
                rw [if_pos (by trivial)]
            | cons kv kvs =>
                obtain ⟨k, v⟩ := kv
                have hv1 : 1 ≤ jsize v := jsize_pos v
                have hm1 : 1 ≤ jsizeMembers kvs := jsizeMembers_pos kvs
                have hsz : jsize (.obj ((k, v) :: kvs)) = 2 + jsize v + jsizeMembers kvs := by
                  simp [jsize, jsizeMembers]; ring
                obtain ⟨f2, rfl⟩ : ∃ f2, f = f2 + 2 := ⟨f - 2, by omega⟩
                have hfv : jsize v + 1 ≤ f2 := by omega
                have hfm : jsizeMembers kvs ≤ f2 := by omega
                rw [pVal.eq_def]
                simp only []
                rw [skipWs_ws_append _ hw]
                rw [show Json.ser p d (.obj ((k, v) :: kvs)) ++ rest
                    = 123 :: (nlB p (d + 1) ++ (serMember p (d + 1) (k, v)
                        ++ (serMembers p (d + 1) kvs ++ (nlB p d ++ 125 :: rest)))) by
                  simp [Json.ser]]
                rw [skipWs_not_ws _ (by decide)]
                simp only []
                rw [if_neg (by decide), if_neg (by decide), if_neg (by decide),
                    if_neg (by decide), if_neg (by decide), if_pos (by trivial)]
                rw [pObjFirst.eq_def]
                simp only []
                rw [skipWs_nlB]
                rw [show serMember p (d + 1) (k, v)
                      ++ (serMembers p (d + 1) kvs ++ (nlB p d ++ 125 :: rest))
                    = 34 :: ((escape k ++ 34 :: (colonB p ++ (Json.ser p (d + 1) v
                        ++ (serMembers p (d + 1) kvs ++ (nlB p d ++ 125 :: rest)))))) by
                  simp [serMember]]
                rw [skipWs_not_ws _ (by decide)]
                simp only []
                rw [if_neg (by decide)]
                have htail : noDigitHead (serMembers p (d + 1) kvs ++ (nlB p d ++ 125 :: rest))
                    = true :=
                  noDigitHead_serMembers _ _ _ _ (noDigitHead_nlB _ _ _ (noDigitHead_125 rest))
                have hM := hmem k v (by omega) f2 hfv p (d + 1)
                  (serMembers p (d + 1) kvs ++ (nlB p d ++ 125 :: rest)) htail
                rw [show serMember p (d + 1) (k, v)
                      ++ (serMembers p (d + 1) kvs ++ (nlB p d ++ 125 :: rest))
                    = 34 :: ((escape k ++ 34 :: (colonB p ++ (Json.ser p (d + 1) v
                        ++ (serMembers p (d + 1) kvs ++ (nlB p d ++ 125 :: rest)))))) by
                  simp [serMember]] at hM
                rw [hM]
                simp only []
                rw [ihO kvs (by omega) f2 hfm p (d + 1) d rest]
      · -- array tails
        intro xs hxn f hxf p di dc rest
        cases xs with
        | nil =>
            cases f with
            | zero => simp [jsizeElems] at hxf
            | succ f1 =>
                rw [pArrRest.eq_def]
                simp only []
                rw [show serElems p di [] ++ (nlB p dc ++ 93 :: rest)
                    = nlB p dc ++ 93 :: rest by simp [serElems]]
                rw [skipWs_nlB, skipWs_not_ws _ (by decide)]
                simp only []
                rw [if_pos (by trivial)]
        | cons x xs =>
            have hx1 : 1 ≤ jsize x := jsize_pos x
            have hxs1 : 1 ≤ jsizeElems xs := jsizeElems_pos xs
            have hsz : jsizeElems (x :: xs) = 1 + jsize x + jsizeElems xs := by
              simp [jsizeElems]
            cases f with
            | zero => omega
            | succ f1 =>
                have hfx : jsize x ≤ f1 := by omega
                have hfxs : jsizeElems xs ≤ f1 := by omega
                rw [pArrRest.eq_def]
                simp only []
                rw [show serElems p di (x :: xs) ++ (nlB p dc ++ 93 :: rest)
                    = 44 :: (nlB p di ++ (Json.ser p di x
                        ++ (serElems p di xs ++ (nlB p dc ++ 93 :: rest)))) by
                  simp [serElems]]
                rw [skipWs_not_ws _ (by decide)]
                simp only []
                rw [if_neg (by decide), if_pos (by trivial)]
                have hrest2 : noDigitHead (serElems p di xs ++ (nlB p dc ++ 93 :: rest))
                    = true :=
                  noDigitHead_serElems _ _ _ _ (noDigitHead_nlB _ _ _ (noDigitHead_93 rest))
                have hV := ihV x (by omega) f1 hfx p di (nlB p di)
                  (serElems p di xs ++ (nlB p dc ++ 93 :: rest)) (wsOnly_nlB p di) hrest2
                rw [hV]
                simp only []
                rw [ihA xs (by omega) f1 hfxs p di dc rest]
      · -- object tails
        intro kvs hkn f hkf p di dc rest
        cases kvs with
        | nil =>
            cases f with
            | zero => simp [jsizeMembers] at hkf
            | succ f1 =>
                rw [pObjRest.eq_def]
                simp only []
                rw [show serMembers p di [] ++ (nlB p dc ++ 125 :: rest)
                    = nlB p dc ++ 125 :: rest by simp [serMembers]]
                rw [skipWs_nlB, skipWs_not_ws _ (by decide)]
                simp only []
                rw [if_pos (by trivial)]
        | cons kv kvs =>
            obtain ⟨k, v⟩ := kv
            have hv1 : 1 ≤ jsize v := jsize_pos v
            have hm1 : 1 ≤ jsizeMembers kvs := jsizeMembers_pos kvs
            have hsz : jsizeMembers ((k, v) :: kvs) = 1 + jsize v + jsizeMembers kvs := by
              simp [jsizeMembers]
            cases f with
            | zero => omega
            | succ f1 =>
                have hfv : jsize v + 1 ≤ f1 := by omega
                have hfm : jsizeMembers kvs ≤ f1 := by omega
                rw [pObjRest.eq_def]
                simp only []
                rw [show serMembers p di ((k, v) :: kvs) ++ (nlB p dc ++ 125 :: rest)
                    = 44 :: (nlB p di ++ (serMember p di (k, v)
                        ++ (serMembers p di kvs ++ (nlB p dc ++ 125 :: rest)))) by
                  simp [serMembers]]
                rw [skipWs_not_ws _ (by decide)]
                simp only []
                rw [if_neg (by decide), if_pos (by trivial)]
                rw [skipWs_ws_append _ (wsOnly_nlB p di)]
                have htail : noDigitHead (serMembers p di kvs ++ (nlB p dc ++ 125 :: rest))
                    = true :=
                  noDigitHead_serMembers _ _ _ _ (noDigitHead_nlB _ _ _ (noDigitHead_125 rest))
                have hM := hmem k v (by omega) f1 hfv p di
                  (serMembers p di kvs ++ (nlB p dc ++ 125 :: rest)) htail
                rw [show skipWs (serMember p di (k, v)
                      ++ (serMembers p di kvs ++ (nlB p dc ++ 125 :: rest)))
                    = serMember p di (k, v)
                      ++ (serMembers p di kvs ++ (nlB p dc ++ 125 :: rest)) by
                  rw [show serMember p di (k, v)
                        ++ (serMembers p di kvs ++ (nlB p dc ++ 125 :: rest))
                      = 34 :: (escape k ++ 34 :: (colonB p ++ (Json.ser p di v
                          ++ (serMembers p di kvs ++ (nlB p dc ++ 125 :: rest))))) by
                    simp [serMember]]
                  exact skipWs_not_ws _ (by decide)]
                rw [hM]
                simp only []
                rw [ihO kvs (by omega) f1 hfm p di dc rest]

theorem serInt_length_pos (i : Int) : 1 ≤ (serInt i).length := by
  cases i with
  | ofNat n =>
      by_cases h0 : n = 0
      · simp [serInt, serNat_digits, h0]
      · simp only [serInt, serNat_digits, if_neg h0]
        have h1 : 0 < (Nat.digits 10 n).length :=
          List.length_pos.mpr (Nat.digits_ne_nil_iff_ne_zero.mpr h0)
        simp only [List.length_map, List.length_reverse]
        omega
  | negSucc n => simp [serInt]

/-- The fuel measure of a value is at most twice the length of its
serialization. -/
theorem sizeBound : ∀ n : Nat,
    (∀ v : Json, jsize v ≤ n → ∀ (p : Bool) (d : Nat),
      jsize v ≤ 2 * (Json.ser p d v).length)
    ∧ (∀ xs : List Json, jsizeElems xs ≤ n → ∀ (p : Bool) (d : Nat),
      jsizeElems xs ≤ 2 * (serElems p d xs).length + 2)
    ∧ (∀ kvs : List (Bytes × Json), jsizeMembers kvs ≤ n → ∀ (p : Bool) (d : Nat),
      jsizeMembers kvs ≤ 2 * (serMembers p d kvs).length + 2) := by
  intro n
  induction n with
  | zero =>
      refine ⟨?_, ?_, ?_⟩
      · intro v hv; have := jsize_pos v; omega
      · intro xs hxs; have := jsizeElems_pos xs; omega
      · intro kvs hk; have := jsizeMembers_pos kvs; omega
  | succ n ih =>
      obtain ⟨ihV, ihA, ihO⟩ := ih
      refine ⟨?_, ?_, ?_⟩
      · intro v hvn p d
        cases v with
        | null => simp [jsize, Json.ser]
        | bool b => cases b <;> simp [jsize, Json.ser]
        | num i =>
            have := serInt_length_pos i
            simp only [jsize, Json.ser]
            omega
        | str s =>
            simp only [jsize, Json.ser, List.length_cons, List.length_append]
            omega
        | arr xs =>
            cases xs with
            | nil => simp [jsize, jsizeElems, Json.ser]
            | cons x xs =>
                have hx1 : 1 ≤ jsize x := jsize_pos x
                have hxs1 : 1 ≤ jsizeElems xs := jsizeElems_pos xs
                have hx := ihV x (by simp [jsize, jsizeElems] at hvn ⊢; omega) p (d + 1)
                have hxs := ihA xs (by simp [jsize, jsizeElems] at hvn ⊢; omega) p (d + 1)
                simp only [jsize, jsizeElems] at hvn ⊢
                simp only [Json.ser, List.length_cons, List.length_append, List.length_nil]
                omega
        | obj kvs =>
            cases kvs with
            | nil => simp [jsize, jsizeMembers, Json.ser]
            | cons kv kvs =>
                obtain ⟨k, v⟩ := kv
                have hv1 : 1 ≤ jsize v := jsize_pos v
                have hm1 : 1 ≤ jsizeMembers kvs := jsizeMembers_pos kvs
                have hv := ihV v (by simp [jsize, jsizeMembers] at hvn ⊢; omega) p (d + 1)
                have hm := ihO kvs (by simp [jsize, jsizeMembers] at hvn ⊢; omega) p (d + 1)
                have hc : 1 ≤ (colonB p).length := by cases p <;> simp [colonB]
                simp only [jsize, jsizeMembers] at hvn ⊢
                simp only [Json.ser, serMember, List.length_cons, List.length_append,
                  List.length_nil]
                omega
      · intro xs hxn p d
        cases xs with
        | nil => simp [jsizeElems, serElems]
        | cons x xs =>
            have hx1 : 1 ≤ jsize x := jsize_pos x
            have hxs1 : 1 ≤ jsizeElems xs := jsizeElems_pos xs
            have hx := ihV x (by simp [jsizeElems] at hxn ⊢; omega) p d
            have hxs := ihA xs (by simp [jsizeElems] at hxn ⊢; omega) p d
            simp only [jsizeElems] at hxn ⊢
            simp only [serElems, List.length_cons, List.length_append, List.length_nil]
            omega
      · intro kvs hkn p d
        cases kvs with
        | nil => simp [jsizeMembers, serMembers]
        | cons kv kvs =>
            obtain ⟨k, v⟩ := kv
            have hv1 : 1 ≤ jsize v := jsize_pos v
            have hm1 : 1 ≤ jsizeMembers kvs := jsizeMembers_pos kvs
            have hv := ihV v (by simp [jsizeMembers] at hkn ⊢; omega) p d
            have hm := ihO kvs (by simp [jsizeMembers] at hkn ⊢; omega) p d
            have hc : 1 ≤ (colonB p).length := by cases p <;> simp [colonB]
            simp only [jsizeMembers] at hkn ⊢
            simp only [serMembers, serMember, List.length_cons, List.length_append,
              List.length_nil]
            omega

/-- `json.loads` inverts `model_dump_json` in both modes. -/
theorem jsonLoads_ser (p : Bool) (v : Json) :
    jsonLoads (Json.ser p 0 v) = some v := by
  have hsz := (sizeBound (jsize v)).1 v le_rfl p 0
  have h := (roundTrip (jsize v)).1 v le_rfl (2 * (Json.ser p 0 v).length + 4)
    (by omega) p 0 [] [] rfl rfl
  rw [List.nil_append, List.append_nil] at h
  rw [jsonLoads, h]
  simp [wsOnly]

/-! ## models.py: the pydantic data model. -/

/-- `ModelLayer` (models.py): a single layer descriptor. -/
structure ModelLayer where
  digest : Bytes
  size : Nat
  media_type : Bytes := strBytes "application/vnd.oci.image.layer.v1.tar+gzip"
  annotations : List (Bytes × Bytes) := []

/-- `OCIConfig` (models.py).  String fields are UTF-8 byte lists;
`metadata` is an open JSON object (dict[str, Any]). -/
structure OCIConfig where
  model_name : Bytes
  version : Bytes
  framework : Bytes
  architecture : Bytes
  metadata : List (Bytes × Json) := []

/-- `OCIManifest` (models.py).  `config` is a `dict[str, Any]` and
`layers` a list of such dicts, kept as ordered key/value lists. -/
structure OCIManifest where
  schema_version : Nat := 2
  media_type : Bytes := strBytes "application/vnd.oci.image.manifest.v1+json"
  config : List (Bytes × Json)
  layers : List (List (Bytes × Json)) := []

/-- The JSON tree `model_dump` produces for an `OCIConfig` (pydantic
serializes fields in declaration order). -/
def OCIConfig.json (c : OCIConfig) : Json :=
  .obj [(strBytes "model_name", .str c.model_name),
        (strBytes "version", .str c.version),
        (strBytes "framework", .str c.framework),
        (strBytes "architecture", .str c.architecture),
        (strBytes "metadata", .obj c.metadata)]

/-- `config.model_dump_json()` (compact). -/
def OCIConfig.dumpJson (c : OCIConfig) : Bytes := Json.dumpC c.json

/-- `config.model_dump_json(indent=2)`. -/
def OCIConfig.dumpJsonIndent2 (c : OCIConfig) : Bytes := Json.dumpP c.json

/-- The JSON tree `model_dump` produces for an `OCIManifest`: note the
keys are the snake_case field names (`OCIManifest` declares no field
aliases, so pydantic serializes `schema_version` and `media_type`
verbatim). -/
def OCIManifest.json (m : OCIManifest) : Json :=
  .obj [(strBytes "schema_version", .num (m.schema_version : Int)),
        (strBytes "media_type", .str m.media_type),
        (strBytes "config", .obj m.config),
        (strBytes "layers", .arr (m.layers.map Json.obj))]

/-- `manifest.model_dump_json(indent=2)`. -/
def OCIManifest.dumpJsonIndent2 (m : OCIManifest) : Bytes := Json.dumpP m.json

/-- `OCIConfig.model_validate` over a parsed JSON value: the four
string fields are required strings; `metadata` is an optional object
(pydantic `default_factory=dict`). -/
def OCIConfig.validate (j : Json) : Option OCIConfig :=
  match j with
  | .obj kvs =>
    match lookLast kvs (strBytes "model_name"), lookLast kvs (strBytes "version"),
          lookLast kvs (strBytes "framework"), lookLast kvs (strBytes "architecture") with
    | some (.str mn), some (.str vv), some (.str fw), some (.str ar) =>
        match lookLast kvs (strBytes "metadata") with
        | some (.obj md) => some ⟨mn, vv, fw, ar, md⟩
        | none => some ⟨mn, vv, fw, ar, []⟩
        | some _ => none
    | _, _, _, _ => none
  | _ => none

/-- Validate a JSON list as a list of objects (`list[dict[str, Any]]`
in pydantic terms). -/
def objList : List Json → Option (List (List (Bytes × Json)))
  | [] => some []
  | .obj o :: rest =>
    match objList rest with
    | some t => some (o :: t)
    | none => none
  | _ => none

/-- `OCIManifest.model_validate` over a parsed JSON value: `config`
is a required object, the other fields have defaults. -/
def OCIManifest.validate (j : Json) : Option OCIManifest :=
  match j with
  | .obj kvs =>
    match lookLast kvs (strBytes "config") with
    | some (.obj cfg) =>
      match (match lookLast kvs (strBytes "schema_version") with
             | some (.num (Int.ofNat n)) => some n
             | none => some 2
             | _ => none : Option Nat) with
      | some sv =>
        match (match lookLast kvs (strBytes "media_type") with
               | some (.str s) => some s
               | none => some (strBytes "application/vnd.oci.image.manifest.v1+json")
               | _ => none : Option Bytes) with
        | some mt =>
          match (match lookLast kvs (strBytes "layers") with
                 | some (.arr xs) => objList xs
                 | none => some []
                 | _ => none : Option (List (List (Bytes × Json)))) with
          | some lys => some ⟨sv, mt, cfg, lys⟩
          | none => none
        | none => none
      | none => none
    | _ => none
  | _ => none

/-! ## core.py: packaging, unpacking, verification.

File names, directory entries and archives are modelled explicitly;
the `tarfile`/`gzip`/`zlib` standard-library byte formats are
modelled at their interface (see `tarSingle`, `deflate`,
`gzipWrap`). -/

/-- `core._MANIFEST_FILENAME`. -/
def MANIFEST_FILENAME : Bytes := strBytes "manifest.json"

/-- `core._CONFIG_FILENAME`. -/
def CONFIG_FILENAME : Bytes := strBytes "config.json"

/-- `core._LAYERS_DIR`. -/
def LAYERS_DIR : Bytes := strBytes "blobs/sha256"

/-- Modelled from the Python standard library (code outside this
repository): the DEFLATE body `zlib` produces inside the gzip stream
written by `tarfile.open(mode="w:gz")`.  zlib at fixed settings is
deterministic and lossless; its exact bit stream is abstracted as an
injective, deterministic function of the payload (a length-prefixed
copy). -/
def deflate (payload : Bytes) : Bytes := natLE 8 payload.length ++ payload

/-- Modelled from the Python standard library (code outside this
repository): the single-member tar stream `tarfile` writes for one
regular file, determined by the member name (`arcname`), the file
contents, and the file metadata (mtime) recorded in the header;
abstracted as an injective encoding of those fields. -/
def tarSingle (arcname : Bytes) (content : Bytes) (mtime : Nat) : Bytes :=
  natLE 8 arcname.length ++ arcname ++ natLE 8 mtime
    ++ natLE 8 content.length ++ content

/-- One CRC-32 bit step (RFC 1952 polynomial). -/
def crc32Round (c : Nat) : Nat :=
  if c % 2 = 1 then (c / 2) ^^^ 3988292384 else c / 2

/-- Fold one byte into a CRC-32 accumulator. -/
def crc32Byte (c b : Nat) : Nat :=
  crc32Round (crc32Round (crc32Round (crc32Round
    (crc32Round (crc32Round (crc32Round (crc32Round (c ^^^ b))))))))

/-- CRC-32 of a byte list (RFC 1952). -/
def crc32 (data : Bytes) : Nat :=
  (data.foldl crc32Byte 4294967295) ^^^ 4294967295

/-- RFC 1952 gzip framing as written by `gzip.GzipFile` over a plain
file object (no stored name): the fixed header `1f 8b 08 00`, the
wall-clock `mtime` as 4 little-endian bytes, `XFL=2`, `OS=255`, the
DEFLATE body, then the CRC-32 and modular length trailer.  The
timestamp is `int(time.time())` at the moment the blob is created. -/
def gzipWrap (mtime : Nat) (data : Bytes) : Bytes :=
  [31, 139, 8, 0] ++ natLE 4 (mtime % 4294967296) ++ [2, 255]
    ++ deflate data ++ natLE 4 (crc32 data) ++ natLE 4 (data.length % 4294967296)

/-- A regular file under the source model directory: its path
relative to that directory (POSIX separators), contents, and mtime. -/
structure SrcFile where
  relPath : Bytes
  content : Bytes
  mtime : Nat

/-- A member of a tar archive (or a staged temporary directory):
name, whether it is a regular file, content bytes. -/
structure Entry where
  name : Bytes
  isFile : Bool
  content : Bytes

/-- A tar archive as its ordered member list. -/
abbrev Archive := List Entry

/-- Byte-lexicographic `≤` on byte lists: the order in which
`sorted(...)` arranges path strings and `tarfile.add` lists
directory entries (CPython compares paths as strings). -/
def bytesLe : Bytes → Bytes → Bool
  | [], _ => true
  | _ :: _, [] => false
  | a :: s, b :: t => if a < b then true else if b < a then false else bytesLe s t

/-- Ordering of source files by relative path, as produced by
`sorted(model_path.rglob("*"))` (all paths share the `model_path`
prefix, so comparing full paths equals comparing relative paths). -/
def fileLe (x y : SrcFile) : Prop := bytesLe x.relPath y.relPath = true

instance : DecidableRel fileLe := fun x y => by
  unfold fileLe
  infer_instance

/-- Named-entry ordering used for directory listings. -/
def nameLe (x y : Bytes × Bytes) : Prop := bytesLe x.1 y.1 = true

instance : DecidableRel nameLe := fun x y => by
  unfold nameLe
  infer_instance

/-- `sorted(model_path.rglob("*"))` restricted to the regular files. -/
def sortFiles (files : List SrcFile) : List SrcFile :=
  List.insertionSort fileLe files

/-- A directory listing sorted by name (`tarfile.add` recursion uses
`sorted(os.listdir(...))`). -/
def sortByName (fs : List (Bytes × Bytes)) : List (Bytes × Bytes) :=
  List.insertionSort nameLe fs

/-- Write a file into a staged directory: overwrite the entry with
that name if it exists, otherwise add it. -/
def upsert (fs : List (Bytes × Bytes)) (name content : Bytes) : List (Bytes × Bytes) :=
  match fs with
  | [] => [(name, content)]
  | (n, c) :: rest =>
      if n = name then (n, content) :: rest else (n, c) :: upsert rest name content

/-- The gzip-compressed single-file tar that
`ModelPackager._create_layer_blob` builds for one file. -/
def layer_blob_bytes (arcname : Bytes) (content : Bytes) (fileMtime gzMtime : Nat) : Bytes :=
  gzipWrap gzMtime (tarSingle arcname content fileMtime)

/-- `ModelPackager._create_layer_blob`: digest the compressed blob
bytes and return the layer descriptor; the blob file it writes into
the staging directory is `(sha256Hex bytes, bytes)` (see
`packageBlobWrites`). -/
def create_layer_blob (arcname : Bytes) (content : Bytes) (fileMtime gzMtime : Nat) :
    ModelLayer :=
  { digest := sha256_bytes (layer_blob_bytes arcname content fileMtime gzMtime),
    size := (layer_blob_bytes arcname content fileMtime gzMtime).length,
    annotations := [(strBytes "org.opencontainers.image.title", arcname)] }

/-- The layer-descriptor dict `create_manifest` builds for one
layer. -/
def layerDescriptor (l : ModelLayer) : List (Bytes × Json) :=
  [(strBytes "mediaType", .str l.media_type),
   (strBytes "digest", .str l.digest),
   (strBytes "size", .num (l.size : Int)),
   (strBytes "annotations",
     .obj (l.annotations.map (fun kv => (kv.1, Json.str kv.2))))]

/-- `ModelPackager.create_manifest`: re-serializes the config
*compactly* (`model_dump_json()` without `indent`), digests those
bytes, and builds the config descriptor and layer descriptors. -/
def create_manifest (config : OCIConfig) (layers : List ModelLayer) : OCIManifest :=
  let config_bytes := OCIConfig.dumpJson config
  { config := [(strBytes "mediaType",
                  .str (strBytes "application/vnd.oci.image.config.v1+json")),
               (strBytes "digest", .str (sha256_bytes config_bytes)),
               (strBytes "size", .num (config_bytes.length : Int))],
    layers := layers.map layerDescriptor }

/-- The result of `ModelPackager.package`: the output archive path
name, the archive members in order, the manifest, and the layer
list. -/
structure PackageResult where
  path : Bytes
  archive : Archive
  manifest : OCIManifest
  layers : List ModelLayer
  config_bytes : Bytes

/-- The layer list `package` builds, one per file in sorted order. -/
def packageLayers (files : List SrcFile) (gzMtime : Nat) : List ModelLayer :=
  (sortFiles files).map (fun f =>
    create_layer_blob f.relPath f.content f.mtime gzMtime)

/-- The blob writes `package` performs in order: one per file in
sorted order (hex name, blob bytes). -/
def packageBlobWrites (files : List SrcFile) (gzMtime : Nat) : List (Bytes × Bytes) :=
  (sortFiles files).map (fun f =>
    (sha256Hex (layer_blob_bytes f.relPath f.content f.mtime gzMtime),
     layer_blob_bytes f.relPath f.content f.mtime gzMtime))

/-- The final contents of the staged `blobs/sha256/` directory: the
layer blob writes in order, then the config blob write. -/
def packageBlobFs (files : List SrcFile) (config : OCIConfig) (gzMtime : Nat) :
    List (Bytes × Bytes) :=
  upsert ((packageBlobWrites files gzMtime).foldl (fun fs nc => upsert fs nc.1 nc.2) [])
    (sha256Hex (OCIConfig.dumpJsonIndent2 config)) (OCIConfig.dumpJsonIndent2 config)

/-- The hex blob names `package` writes: one per file, then the
config blob name. -/
def packageBlobNames (files : List SrcFile) (config : OCIConfig) (gzMtime : Nat) :
    List Bytes :=
  (packageBlobWrites files gzMtime).map Prod.fst
    ++ [sha256Hex (OCIConfig.dumpJsonIndent2 config)]

/-- `ModelPackager.package`: walk the files in sorted order creating
one layer blob each, write the serialized config (indent=2) as a blob
named by its digest and as root `config.json`, write the manifest
(indent=2) as root `manifest.json`, and bundle the staging directory
into a tar (directory entries first, then the blob files sorted by
name, then `config.json`, then `manifest.json`).  `gzMtime` is the
wall-clock second stamped into each gzip header. -/
def package (files : List SrcFile) (config : OCIConfig) (gzMtime : Nat) : PackageResult :=
  let layers := packageLayers files gzMtime
  let config_bytes := OCIConfig.dumpJsonIndent2 config
  let manifest := create_manifest config layers
  { path := config.model_name ++ [45] ++ config.version ++ strBytes ".tar",
    archive :=
      ⟨[], false, []⟩ :: ⟨strBytes "blobs", false, []⟩
        :: ⟨LAYERS_DIR, false, []⟩
        :: ((sortByName (packageBlobFs files config gzMtime)).map
              (fun nc => ⟨LAYERS_DIR ++ 47 :: nc.1, true, nc.2⟩)
            ++ [⟨CONFIG_FILENAME, true, config_bytes⟩,
                ⟨MANIFEST_FILENAME, true, OCIManifest.dumpJsonIndent2 manifest⟩]),
    manifest := manifest,
    layers := layers,
    config_bytes := config_bytes }

/-- `ModelPackager.add_layer`: create one blob for the file (arcname
is the bare file name) and append it to the archive in tar append
mode; the manifest member is not rewritten.  Returns the new archive
and the returned descriptor. -/
def add_layer (archive : Archive) (fileName content : Bytes) (fileMtime gzMtime : Nat) :
    Archive × ModelLayer :=
  (archive ++ [⟨LAYERS_DIR ++ 47 :: sha256Hex (layer_blob_bytes fileName content fileMtime gzMtime),
               true, layer_blob_bytes fileName content fileMtime gzMtime⟩],
   create_layer_blob fileName content fileMtime gzMtime)

/-- Last archive member with a given name: the member that wins both
in `{m.name: m for m in tar.getmembers()}` and on the file system
after `extractall` (later members overwrite earlier ones). -/
def findLastEntry (archive : Archive) (name : Bytes) : Option Entry :=
  match archive with
  | [] => none
  | e :: rest =>
    match findLastEntry rest name with
    | some r => some r
    | none => if e.name = name then some e else none

/-- Split a byte list on a separator byte (`str.split`). -/
def splitAll (sep : Nat) : Bytes → List Bytes
  | [] => [[]]
  | b :: rest =>
    match splitAll sep rest with
    | [] => [[]]
    | c :: cs => if b = sep then [] :: c :: cs else (b :: c) :: cs

/-- The path `tarfile.extractall` writes a member to:
`os.path.join(outputDir, member.name)`, with no sanitization of
parent-directory components (the pre-3.14 default extraction
filter). -/
def extractDest (outputDir name : Bytes) : Bytes := outputDir ++ 47 :: name

/-- Resolve `..`, `.` and empty components of a `/`-separated path
the way the file system resolves the final location. -/
def resolveComps (comps : List Bytes) : List Bytes :=
  comps.foldl (fun acc c =>
    if c = [46, 46] then acc.dropLast
    else if c = [] ∨ c = [46] then acc
    else acc ++ [c]) []

/-- Final resolved path components of an extracted member. -/
def resolvedDest (outputDir name : Bytes) : List Bytes :=
  resolveComps (splitAll 47 (extractDest outputDir name))

/-- Whether a resolved destination lies inside the output
directory. -/
def underDir (outputDir : Bytes) (dest : List Bytes) : Bool :=
  (resolveComps (splitAll 47 outputDir)).isPrefixOf dest

/-- The distinct regular-file paths (relative to the output
directory) present after `extractall`: one file per distinct member
name. -/
def writtenFiles (archive : Archive) : List Bytes :=
  ((archive.filter (fun e => e.isFile)).map (fun e => e.name)).dedup

/-- Failure modes of `unpack` (raised Python exceptions). -/
inductive UnpackErr where
  | fileNotFound : UnpackErr
  | readError : UnpackErr
  | malformedJson : UnpackErr
  | validationErr : UnpackErr
deriving DecidableEq

/-- `ModelUnpackager.unpack`: after extracting everything into the
output directory, read `config.json` from it (the content of the last
member of that name), parse it with `json.loads` and validate it as
an `OCIConfig`.  Raises `FileNotFoundError` when the archive has no
`config.json`. -/
def unpack (archive : Archive) : Except UnpackErr OCIConfig :=
  match findLastEntry archive CONFIG_FILENAME with
  | none => .error .fileNotFound
  | some e =>
    if e.isFile then
      match jsonLoads e.content with
      | some j =>
        match OCIConfig.validate j with
        | some c => .ok c
        | none => .error .validationErr
      | none => .error .malformedJson
    else .error .readError

/-- Failure modes of `verify_layers` (raised Python exceptions). -/
inductive VerifyErr where
  | fileNotFound : VerifyErr
  | runtimeErr : VerifyErr
  | malformedJson : VerifyErr
  | validationErr : VerifyErr
  | keyErr : VerifyErr
  | typeErr : VerifyErr
  | indexErr : VerifyErr
deriving DecidableEq

/-- One iteration of the `verify_layers` loop: given a layer
descriptor, read its digest (`KeyError` when absent, attribute /
`IndexError` failures when not a colon-bearing string), look up the
content-addressed blob entry among the members (absent or unreadable
gives `False`), and otherwise compare the recomputed digest. -/
def checkLayer (archive : Archive) (desc : List (Bytes × Json)) :
    Except VerifyErr (Bytes × Bool) :=
  match lookLast desc (strBytes "digest") with
  | none => .error .keyErr
  | some (Json.str digest) =>
    match (splitAll 58 digest).get? 1 with
    | none => .error .indexErr
    | some hex =>
      match findLastEntry archive (LAYERS_DIR ++ 47 :: hex) with
      | none => .ok (digest, false)
      | some bm =>
        if bm.isFile then
          .ok (digest, sha256_bytes bm.content == digest)
        else .ok (digest, false)
  | some _ => .error .typeErr

/-- `ModelUnpackager.verify_layers`: read and validate the manifest
from the archive, then for each layer descriptor in manifest order
look up `blobs/sha256/<hex>` (where `<hex>` is `digest.split(":")[1]`)
among the members; a missing or unreadable entry contributes
`(digest, False)`, otherwise the entry's bytes are re-hashed and
compared with the recorded digest.  A missing manifest raises
`FileNotFoundError`; a layer descriptor without a string `"digest"`
containing a colon raises (`KeyError`/`IndexError`/attribute
error). -/
def verify_layers (archive : Archive) : Except VerifyErr (List (Bytes × Bool)) :=
  match findLastEntry archive MANIFEST_FILENAME with
  | none => .error .fileNotFound
  | some m =>
    if m.isFile then
      match jsonLoads m.content with
      | some j =>
        match OCIManifest.validate j with
        | some manifest => manifest.layers.mapM (checkLayer archive)
        | none => .error .validationErr
      | none => .error .malformedJson
    else .error .runtimeErr

/-! ## Round trips of the pydantic models, and archive lemmas. -/

theorem objList_map (l : List (List (Bytes × Json))) : objList (l.map Json.obj) = some l := by
  induction l with
  | nil => rfl
  | cons a t ih => simp [objList, ih]

/-- `OCIConfig.model_validate(json.loads(...))` inverts serialization
at the tree level. -/
theorem validate_config_json (c : OCIConfig) :
    OCIConfig.validate (OCIConfig.json c) = some c := rfl

/-- `OCIManifest.model_validate` inverts serialization at the tree
level. -/
theorem validate_manifest_json (m : OCIManifest) :
    OCIManifest.validate (OCIManifest.json m) = some m := by
  obtain ⟨sv, mt, cfg, lys⟩ := m
  show (match objList (lys.map Json.obj) with
        | some l => some (⟨sv, mt, cfg, l⟩ : OCIManifest)
        | none => none) = some ⟨sv, mt, cfg, lys⟩
  rw [objList_map]

/-- `json.loads` of the `indent=2` config dump recovers the tree. -/
theorem jsonLoads_config (c : OCIConfig) :
    jsonLoads (OCIConfig.dumpJsonIndent2 c) = some (OCIConfig.json c) :=
  jsonLoads_ser true c.json

/-- `json.loads` of the `indent=2` manifest dump recovers the tree. -/
theorem jsonLoads_manifest (m : OCIManifest) :
    jsonLoads (OCIManifest.dumpJsonIndent2 m) = some (OCIManifest.json m) :=
  jsonLoads_ser true m.json

theorem findLastEntry_append (xs ys : Archive) (n : Bytes) :
    findLastEntry (xs ++ ys) n
      = (match findLastEntry ys n with
         | some e => some e
         | none => findLastEntry xs n) := by
  induction xs with
  | nil =>
      simp only [List.nil_append]
      cases h : findLastEntry ys n with
      | some e => rfl
      | none => rfl
  | cons e t ih =>
      have ih' : findLastEntry (List.append t ys) n
          = (match findLastEntry ys n with
             | some e => some e
             | none => findLastEntry t n) := ih
      simp only [List.cons_append, findLastEntry, ih']
      cases h : findLastEntry ys n with
      | some r => rfl
      | none =>
          cases h2 : findLastEntry t n with
          | some r2 => rfl
          | none => rfl

theorem findLastEntry_mem {l : Archive} {n : Bytes} {e : Entry}
    (h : findLastEntry l n = some e) : e ∈ l ∧ e.name = n := by
  induction l with
  | nil => simp [findLastEntry] at h
  | cons a t ih =>
      rw [findLastEntry] at h
      cases hf : findLastEntry t n with
      | some r =>
          rw [hf] at h
          have h' : r = e := by simpa using h
          subst h'
          obtain ⟨hm, hn⟩ := ih hf
          exact ⟨List.mem_cons_of_mem a hm, hn⟩
      | none =>
          rw [hf] at h
          simp only [] at h
          by_cases ha : a.name = n
          · rw [if_pos ha] at h
            have h' : a = e := by simpa using h
            subst h'
            exact ⟨List.mem_cons_self _ _, ha⟩
          · rw [if_neg ha] at h
            cases h

theorem findLastEntry_isSome_of_mem {l : Archive} {e : Entry}
    (hm : e ∈ l) : (findLastEntry l e.name).isSome = true := by
  induction l with
  | nil => simp at hm
  | cons a t ih =>
      rw [findLastEntry]
      cases hf : findLastEntry t e.name with
      | some r => rfl
      | none =>
          rcases List.mem_cons.mp hm with h | h
          · subst h; simp
          · have := ih h
            rw [hf] at this
            simp at this

theorem upsert_fresh {fs : List (Bytes × Bytes)} {n : Bytes} (c : Bytes)
    (h : n ∉ fs.map Prod.fst) : upsert fs n c = fs ++ [(n, c)] := by
  induction fs with
  | nil => rfl
  | cons p t ih =>
      obtain ⟨pn, pc⟩ := p
      simp only [List.map_cons, List.mem_cons, not_or] at h
      have hne : ¬pn = n := fun he => h.1 he.symm
      simp only [upsert]
      rw [if_neg hne, ih h.2]
      rfl

/-- Keys already present survive an upsert. -/
theorem upsert_mem_keys {fs : List (Bytes × Bytes)} {k : Bytes} (n c : Bytes)
    (h : k ∈ fs.map Prod.fst) : k ∈ (upsert fs n c).map Prod.fst := by
  induction fs with
  | nil => simp at h
  | cons p t ih =>
      obtain ⟨pn, pc⟩ := p
      by_cases he : pn = n
      · simpa [upsert, he] using h
      · simp only [List.map_cons, List.mem_cons] at h
        rcases h with h | h
        · simp [upsert, he, h]
        · simp [upsert, he, ih h]

/-- The upserted key is present afterwards. -/
theorem upsert_mem_keys_self (fs : List (Bytes × Bytes)) (n c : Bytes) :
    n ∈ (upsert fs n c).map Prod.fst := by
  induction fs with
  | nil => simp [upsert]
  | cons p t ih =>
      obtain ⟨pn, pc⟩ := p
      by_cases he : pn = n
      · simp [upsert, he]
      · simp [upsert, he, ih]

/-- An upsert of a pair satisfying `P` into a store of pairs
satisfying `P` yields pairs satisfying `P`. -/
theorem upsert_pres {P : Bytes × Bytes → Prop} {fs : List (Bytes × Bytes)}
    {n c : Bytes} (hfs : ∀ p ∈ fs, P p) (hc : P (n, c)) :
    ∀ p ∈ upsert fs n c, P p := by
  induction fs with
  | nil => simpa [upsert]
  | cons q t ih =>
      obtain ⟨qn, qc⟩ := q
      intro p hp
      by_cases he : qn = n
      · rw [upsert, if_pos he] at hp
        rcases List.mem_cons.mp hp with h | h
        · subst h
          subst he
          exact hc
        · exact hfs p (List.mem_cons_of_mem _ h)
      · rw [upsert, if_neg he] at hp
        rcases List.mem_cons.mp hp with h | h
        · exact hfs p (h ▸ List.mem_cons_self _ _)
        · exact ih (fun q hq => hfs q (List.mem_cons_of_mem _ hq)) p h

/-- Folding fresh writes over an upsert store appends them in
order. -/
theorem foldl_upsert_fresh :
    ∀ (writes : List (Bytes × Bytes)) (fs : List (Bytes × Bytes)),
      ((fs ++ writes).map Prod.fst).Nodup →
      writes.foldl (fun a nc => upsert a nc.1 nc.2) fs = fs ++ writes := by
  intro writes
  induction writes with
  | nil => intro fs _; simp
  | cons w t ih =>
      intro fs hnd
      obtain ⟨wn, wc⟩ := w
      have hfresh : wn ∉ fs.map Prod.fst := by
        intro hmem
        have hnd' : (fs.map Prod.fst ++ wn :: t.map Prod.fst).Nodup := by
          simpa using hnd
        exact (List.nodup_append.mp hnd').2.2 hmem (List.mem_cons_self _ _)
      rw [List.foldl_cons]
      rw [upsert_fresh wc hfresh]
      rw [ih (fs ++ [(wn, wc)]) (by simpa using hnd)]
      simp

theorem bytesLe_total (a : Bytes) : ∀ b, bytesLe a b = true ∨ bytesLe b a = true := by
  induction a with
  | nil => intro b; left; rfl
  | cons x s ih =>
      intro b
      cases b with
      | nil => right; rfl
      | cons y t =>
          by_cases hxy : x < y
          · left; simp [bytesLe, hxy]
          · by_cases hyx : y < x
            · right; simp [bytesLe, hyx]
            · have hx : x = y := by omega
              subst hx
              rcases ih t with h | h
              · left; simp [bytesLe, h]
              · right; simp [bytesLe, h]

theorem bytesLe_trans (a : Bytes) :
    ∀ b c, bytesLe a b = true → bytesLe b c = true → bytesLe a c = true := by
  induction a with
  | nil => intro b c _ _; rfl
  | cons x s ih =>
      intro b c hab hbc
      cases b with
      | nil => simp [bytesLe] at hab
      | cons y t =>
          cases c with
          | nil => simp [bytesLe] at hbc
          | cons z u =>
              simp only [bytesLe] at hab hbc ⊢
              by_cases hxy : x < y <;> by_cases hyz : y < z
              · rw [if_pos (by omega)]
              · rw [if_neg hyz] at hbc
                by_cases hzy : z < y
                · rw [if_pos hzy] at hbc
                  exact absurd hbc (by simp)
                · have : y = z := by omega
                  subst this
                  rw [if_pos hxy]
              · rw [if_neg hxy] at hab
                by_cases hyx : y < x
                · rw [if_pos hyx] at hab
                  exact absurd hab (by simp)
                · have : x = y := by omega
                  subst this
                  rw [if_pos hyz]
              · rw [if_neg hxy] at hab
                rw [if_neg hyz] at hbc
                by_cases hyx : y < x
                · rw [if_pos hyx] at hab
                  exact absurd hab (by simp)
                · by_cases hzy : z < y
                  · rw [if_pos hzy] at hbc
                    exact absurd hbc (by simp)
                  · have h1 : x = y := by omega
                    have h2 : y = z := by omega
                    subst h1
                    subst h2
                    rw [if_neg hyx] at hab hbc
                    rw [if_neg hxy, if_neg hyx]
                    exact ih t u hab hbc

instance : IsTotal SrcFile fileLe :=
  ⟨fun a b => bytesLe_total a.relPath b.relPath⟩

instance : IsTrans SrcFile fileLe :=
  ⟨fun a b c hab hbc => bytesLe_trans a.relPath b.relPath c.relPath hab hbc⟩

/-- `sortFiles` has the same length as its input. -/
theorem sortFiles_length (files : List SrcFile) :
    (sortFiles files).length = files.length :=
  List.length_insertionSort _ files

/-- `sortFiles` output is sorted by relative path. -/
theorem sortFiles_sorted (files : List SrcFile) :
    List.Sorted fileLe (sortFiles files) :=
  List.sorted_insertionSort fileLe files

theorem blobName_ne_config (h : Bytes) : LAYERS_DIR ++ 47 :: h ≠ CONFIG_FILENAME := by
  intro he
  have h1 : (LAYERS_DIR ++ 47 :: h).head? = some 98 := rfl
  rw [he] at h1
  exact absurd h1 (by decide)

theorem blobName_ne_manifest (h : Bytes) : LAYERS_DIR ++ 47 :: h ≠ MANIFEST_FILENAME := by
  intro he
  have h1 : (LAYERS_DIR ++ 47 :: h).head? = some 98 := rfl
  rw [he] at h1
  exact absurd h1 (by decide)

theorem blobName_ne_nil (h : Bytes) : LAYERS_DIR ++ 47 :: h ≠ [] := by
  intro he
  have h1 := congrArg List.length he
  rw [List.length_append] at h1
  simp at h1

theorem blobName_ne_blobs (h : Bytes) : LAYERS_DIR ++ 47 :: h ≠ strBytes "blobs" := by
  intro he
  have h1 := congrArg List.length he
  rw [List.length_append, show LAYERS_DIR.length = 12 from rfl,
      show (strBytes "blobs").length = 5 from rfl, List.length_cons] at h1
  omega

theorem blobName_ne_layersdir (h : Bytes) : LAYERS_DIR ++ 47 :: h ≠ LAYERS_DIR := by
  intro he
  have h1 := congrArg List.length he
  rw [List.length_append, show LAYERS_DIR.length = 12 from rfl, List.length_cons] at h1
  omega

/-- Two blob names agree only when their hex parts do. -/
theorem blobName_inj {h1 h2 : Bytes} (he : LAYERS_DIR ++ 47 :: h1 = LAYERS_DIR ++ 47 :: h2) :
    h1 = h2 := by
  have := List.append_cancel_left he
  exact List.tail_eq_of_cons_eq this

theorem package_archive_eq (files : List SrcFile) (config : OCIConfig) (t : Nat) :
    (package files config t).archive
      = ⟨[], false, []⟩ :: ⟨strBytes "blobs", false, []⟩ :: ⟨LAYERS_DIR, false, []⟩
        :: ((sortByName (packageBlobFs files config t)).map
              (fun nc => ⟨LAYERS_DIR ++ 47 :: nc.1, true, nc.2⟩)
            ++ [⟨CONFIG_FILENAME, true, OCIConfig.dumpJsonIndent2 config⟩,
                ⟨MANIFEST_FILENAME, true,
                  OCIManifest.dumpJsonIndent2
                    (create_manifest config (packageLayers files t))⟩]) := rfl

theorem package_manifest_eq (files : List SrcFile) (config : OCIConfig) (t : Nat) :
    (package files config t).manifest = create_manifest config (packageLayers files t) := rfl

theorem package_layers_eq (files : List SrcFile) (config : OCIConfig) (t : Nat) :
    (package files config t).layers = packageLayers files t := rfl

theorem findLastEntry_cons_some {rest : Archive} {n : Bytes} {e : Entry} (a : Entry)
    (h : findLastEntry rest n = some e) : findLastEntry (a :: rest) n = some e := by
  rw [findLastEntry, h]

/-- The archive written by `package` has the serialized config at
`config.json` (no other member shadows that name). -/
theorem package_findLast_config (files : List SrcFile) (config : OCIConfig) (t : Nat) :
    findLastEntry (package files config t).archive CONFIG_FILENAME
      = some ⟨CONFIG_FILENAME, true, OCIConfig.dumpJsonIndent2 config⟩ := by
  rw [package_archive_eq]
  apply findLastEntry_cons_some
  apply findLastEntry_cons_some
  apply findLastEntry_cons_some
  rw [findLastEntry_append]
  have h1 : findLastEntry
      [⟨CONFIG_FILENAME, true, OCIConfig.dumpJsonIndent2 config⟩,
       ⟨MANIFEST_FILENAME, true,
        OCIManifest.dumpJsonIndent2 (create_manifest config (packageLayers files t))⟩]
      CONFIG_FILENAME
      = some ⟨CONFIG_FILENAME, true, OCIConfig.dumpJsonIndent2 config⟩ := by
    simp [findLastEntry, show ¬(MANIFEST_FILENAME = CONFIG_FILENAME) by decide]
  rw [h1]

/-- The archive written by `package` has the serialized manifest at
`manifest.json`. -/
theorem package_findLast_manifest (files : List SrcFile) (config : OCIConfig) (t : Nat) :
    findLastEntry (package files config t).archive MANIFEST_FILENAME
      = some ⟨MANIFEST_FILENAME, true,
          OCIManifest.dumpJsonIndent2 (create_manifest config (packageLayers files t))⟩ := by
  rw [package_archive_eq]
  apply findLastEntry_cons_some
  apply findLastEntry_cons_some
  apply findLastEntry_cons_some
  rw [findLastEntry_append]
  have h1 : findLastEntry
      [⟨CONFIG_FILENAME, true, OCIConfig.dumpJsonIndent2 config⟩,
       ⟨MANIFEST_FILENAME, true,
        OCIManifest.dumpJsonIndent2 (create_manifest config (packageLayers files t))⟩]
      MANIFEST_FILENAME
      = some ⟨MANIFEST_FILENAME, true,
          OCIManifest.dumpJsonIndent2 (create_manifest config (packageLayers files t))⟩ := by
    simp [findLastEntry, show ¬(CONFIG_FILENAME = MANIFEST_FILENAME) by decide]
  rw [h1]

/-- Unpacking a freshly packaged archive returns the original
config. -/
theorem unpack_package (files : List SrcFile) (config : OCIConfig) (t : Nat) :
    unpack (package files config t).archive = Except.ok config := by
  rw [unpack, package_findLast_config]
  simp only [if_pos]
  rw [jsonLoads_config]
  simp only []
  rw [validate_config_json]

/-! ## Blob store facts. -/

theorem foldl_upsert_pres {P : Bytes × Bytes → Prop} :
    ∀ (writes : List (Bytes × Bytes)) (fs : List (Bytes × Bytes)),
      (∀ w ∈ writes, P w) → (∀ p ∈ fs, P p) →
      ∀ p ∈ writes.foldl (fun a nc => upsert a nc.1 nc.2) fs, P p := by
  intro writes
  induction writes with
  | nil => intro fs _ hfs p hp; exact hfs p hp
  | cons w t ih =>
      intro fs hw hfs p hp
      rw [List.foldl_cons] at hp
      refine ih _ (fun q hq => hw q (List.mem_cons_of_mem _ hq)) ?_ p hp
      exact upsert_pres hfs (by simpa using hw w (List.mem_cons_self _ _))

theorem foldl_upsert_keys_mono :
    ∀ (writes : List (Bytes × Bytes)) (fs : List (Bytes × Bytes)) (k : Bytes),
      k ∈ fs.map Prod.fst →
      k ∈ (writes.foldl (fun a nc => upsert a nc.1 nc.2) fs).map Prod.fst := by
  intro writes
  induction writes with
  | nil => intro fs k h; exact h
  | cons w t ih =>
      intro fs k h
      rw [List.foldl_cons]
      exact ih _ k (upsert_mem_keys _ _ h)

theorem foldl_upsert_keys_mem :
    ∀ (writes : List (Bytes × Bytes)) (fs : List (Bytes × Bytes)) (w : Bytes × Bytes),
      w ∈ writes →
      w.1 ∈ (writes.foldl (fun a nc => upsert a nc.1 nc.2) fs).map Prod.fst := by
  intro writes
  induction writes with
  | nil => intro fs w h; simp at h
  | cons v t ih =>
      intro fs w h
      rw [List.foldl_cons]
      rcases List.mem_cons.mp h with h | h
      · subst h
        exact foldl_upsert_keys_mono t _ _ (upsert_mem_keys_self fs w.1 w.2)
      · exact ih _ w h

/-- Every blob write of `package` pairs a content with the hex SHA-256
of that content as its name. -/
theorem blobwrites_hash (files : List SrcFile) (t : Nat) :
    ∀ w ∈ packageBlobWrites files t, sha256Hex w.2 = w.1 := by
  intro w hw
  rw [packageBlobWrites] at hw
  obtain ⟨f, _, hf⟩ := List.mem_map.mp hw
  rw [← hf]

theorem packageBlobFs_hash (files : List SrcFile) (config : OCIConfig) (t : Nat) :
    ∀ p ∈ packageBlobFs files config t, sha256Hex p.2 = p.1 := by
  have h2 : ∀ p ∈ (packageBlobWrites files t).foldl (fun a nc => upsert a nc.1 nc.2) [],
      sha256Hex p.2 = p.1 :=
    foldl_upsert_pres _ _ (blobwrites_hash files t) (by intro p hp; simp at hp)
  rw [packageBlobFs]
  exact upsert_pres h2 (by simp)

/-- Every layer blob key written by `package` is present in the final
staged blob directory. -/
theorem packageBlobFs_layer_key (files : List SrcFile) (config : OCIConfig) (t : Nat) :
    ∀ w ∈ packageBlobWrites files t,
      w.1 ∈ (packageBlobFs files config t).map Prod.fst := by
  intro w hw
  rw [packageBlobFs]
  exact upsert_mem_keys _ _ (foldl_upsert_keys_mem _ _ w hw)

/-- Pair-split form of the previous lemma, convenient when the key
is a large concrete term. -/
theorem packageBlobFs_layer_key2 (files : List SrcFile) (config : OCIConfig) (t : Nat)
    (k c : Bytes) (hw : (k, c) ∈ packageBlobWrites files t) :
    k ∈ (packageBlobFs files config t).map Prod.fst :=
  packageBlobFs_layer_key files config t (k, c) hw

/-- The config blob key is present in the final staged blob
directory. -/
theorem packageBlobFs_config_key (files : List SrcFile) (config : OCIConfig) (t : Nat) :
    sha256Hex (OCIConfig.dumpJsonIndent2 config)
      ∈ (packageBlobFs files config t).map Prod.fst := by
  rw [packageBlobFs]
  exact upsert_mem_keys_self _ _ _

/-- With pairwise-distinct blob digests, the staged blob directory is
exactly the writes in order. -/
theorem packageBlobFs_eq (files : List SrcFile) (config : OCIConfig) (t : Nat)
    (h : (packageBlobNames files config t).Nodup) :
    packageBlobFs files config t
      = packageBlobWrites files t
          ++ [(sha256Hex (OCIConfig.dumpJsonIndent2 config),
               OCIConfig.dumpJsonIndent2 config)] := by
  rw [packageBlobNames] at h
  have hkeys : ((packageBlobWrites files t).map Prod.fst).Nodup :=
    (List.nodup_append.mp h).1
  have hcfg : sha256Hex (OCIConfig.dumpJsonIndent2 config)
      ∉ (packageBlobWrites files t).map Prod.fst := by
    intro hmem
    exact (List.nodup_append.mp h).2.2 hmem (List.mem_singleton_self _)
  rw [packageBlobFs, foldl_upsert_fresh _ [] (by simpa using hkeys)]
  rw [List.nil_append, upsert_fresh _ hcfg]

/-- Membership transfers between the sorted blob listing and the
staged directory. -/
theorem sortByName_mem {fs : List (Bytes × Bytes)} {p : Bytes × Bytes} :
    p ∈ sortByName fs ↔ p ∈ fs :=
  (List.perm_insertionSort nameLe fs).mem_iff

theorem sortByName_length (fs : List (Bytes × Bytes)) :
    (sortByName fs).length = fs.length :=
  List.length_insertionSort _ fs

/-! ## `digest.split(":")` facts. -/

theorem splitAll_ne_nil (sep : Nat) (s : Bytes) : splitAll sep s ≠ [] := by
  cases s with
  | nil => simp [splitAll]
  | cons b rest =>
      rw [splitAll]
      cases h : splitAll sep rest with
      | nil => simp
      | cons c cs =>
          by_cases hb : b = sep
          · simp [hb]
          · simp [hb]

theorem splitAll_no_sep (sep : Nat) (s : Bytes) (h : ∀ b ∈ s, ¬b = sep) :
    splitAll sep s = [s] := by
  induction s with
  | nil => rfl
  | cons b rest ih =>
      rw [splitAll, ih (fun x hx => h x (List.mem_cons_of_mem b hx))]
      simp only []
      rw [if_neg (h b (List.mem_cons_self b rest))]

theorem splitAll_two (sep : Nat) (pre post : Bytes)
    (hpre : ∀ b ∈ pre, ¬b = sep) (hpost : ∀ b ∈ post, ¬b = sep) :
    splitAll sep (pre ++ sep :: post) = [pre, post] := by
  induction pre with
  | nil =>
      rw [List.nil_append, splitAll, splitAll_no_sep sep post hpost]
      simp only []
      rw [if_pos (by trivial)]
  | cons b pre ih =>
      rw [List.cons_append, splitAll,
        ih (fun x hx => hpre x (List.mem_cons_of_mem b hx))]
      simp only []
      rw [if_neg (hpre b (List.mem_cons_self b pre))]

theorem hexDigit_ne_colon (y : Nat) : ¬hexDigit y = 58 := by
  rw [hexDigit]
  by_cases h : y < 10
  · rw [if_pos h]; omega
  · rw [if_neg h]; omega

theorem hexBytes_no_colon (l : Bytes) : ∀ b ∈ hexBytes l, ¬b = 58 := by
  intro b hb
  rw [hexBytes] at hb
  obtain ⟨x, _, hx⟩ := List.mem_flatMap.mp hb
  simp only [List.mem_cons, List.not_mem_nil, or_false] at hx
  rcases hx with h | h
  · rw [h]; exact hexDigit_ne_colon _
  · rw [h]; exact hexDigit_ne_colon _

/-- `digest.split(":")[1]` of a digest produced by `_sha256_bytes` is
its hex part. -/
theorem splitColon_sha256_bytes (data : Bytes) :
    (splitAll 58 (sha256_bytes data)).get? 1 = some (sha256Hex data) := by
  have hshape : sha256_bytes data
      = strBytes "sha256" ++ 58 :: hexBytes (sha256 data) := rfl
  rw [hshape, splitAll_two 58 _ _ (by decide) (hexBytes_no_colon _)]
  rfl

theorem sha256_bytes_eq (x : Bytes) :
    sha256_bytes x = strBytes "sha256:" ++ sha256Hex x := rfl

/-- Every archive member written by `package` whose name is a blob
path is a regular file whose name is the hex SHA-256 of its stored
content: the digest is over the compressed bytes as stored. -/
theorem package_blob_entry_spec (files : List SrcFile) (config : OCIConfig) (t : Nat) :
    ∀ e ∈ (package files config t).archive, ∀ h : Bytes,
      e.name = LAYERS_DIR ++ 47 :: h → e.isFile = true ∧ sha256Hex e.content = h := by
  rw [package_archive_eq]
  intro e he h hname
  rcases List.mem_cons.mp he with rfl | he
  · exact absurd (hname.symm) (blobName_ne_nil h)
  rcases List.mem_cons.mp he with rfl | he
  · exact absurd (hname.symm) (blobName_ne_blobs h)
  rcases List.mem_cons.mp he with rfl | he
  · exact absurd (hname.symm) (blobName_ne_layersdir h)
  rcases List.mem_append.mp he with he | he
  · obtain ⟨nc, hnc, hmap⟩ := List.mem_map.mp he
    rw [← hmap] at hname ⊢
    simp only [] at hname ⊢
    have hkey : nc.1 = h := blobName_inj hname
    have hhash : sha256Hex nc.2 = nc.1 :=
      packageBlobFs_hash files config t nc (sortByName_mem.mp hnc)
    exact ⟨by trivial, by rw [hhash, hkey]⟩
  · rcases List.mem_cons.mp he with rfl | he
    · exact absurd (hname.symm) (blobName_ne_config h)
    rcases List.mem_cons.mp he with rfl | he
    · exact absurd (hname.symm) (blobName_ne_manifest h)
    · simp at he

/-- Every blob key staged by `package` can be looked up in the
archive. -/
theorem package_blob_lookup (files : List SrcFile) (config : OCIConfig) (t : Nat)
    (key : Bytes) (hkey : key ∈ (packageBlobFs files config t).map Prod.fst) :
    ∃ e, findLastEntry (package files config t).archive (LAYERS_DIR ++ 47 :: key) = some e := by
  obtain ⟨p, hp, hpk⟩ := List.mem_map.mp hkey
  have hmem : (⟨LAYERS_DIR ++ 47 :: p.1, true, p.2⟩ : Entry)
      ∈ (package files config t).archive := by
    rw [package_archive_eq]
    apply List.mem_cons_of_mem
    apply List.mem_cons_of_mem
    apply List.mem_cons_of_mem
    apply List.mem_append_left
    exact List.mem_map.mpr ⟨p, sortByName_mem.mpr hp, rfl⟩
  have hsome := findLastEntry_isSome_of_mem hmem
  have hname : (⟨LAYERS_DIR ++ 47 :: p.1, true, p.2⟩ : Entry).name
      = LAYERS_DIR ++ 47 :: key := by
    rw [show (⟨LAYERS_DIR ++ 47 :: p.1, true, p.2⟩ : Entry).name
        = LAYERS_DIR ++ 47 :: p.1 from rfl, hpk]
  rw [hname] at hsome
  obtain ⟨e, he⟩ := Option.isSome_iff_exists.mp hsome
  exact ⟨e, he⟩

theorem lookLast_layerDescriptor_digest (l : ModelLayer) :
    lookLast (layerDescriptor l) (strBytes "digest") = some (Json.str l.digest) := rfl

theorem create_manifest_layers (config : OCIConfig) (layers : List ModelLayer) :
    (create_manifest config layers).layers = layers.map layerDescriptor := rfl

/-- A layer produced by `package` verifies: its blob entry is present
and its recorded digest matches the stored bytes. -/
theorem checkLayer_package (files : List SrcFile) (config : OCIConfig) (t : Nat)
    (l : ModelLayer) (hl : l ∈ packageLayers files t) :
    checkLayer (package files config t).archive (layerDescriptor l)
      = Except.ok (l.digest, true) := by
  rw [packageLayers] at hl
  obtain ⟨f, hfmem, hf⟩ := List.mem_map.mp hl
  have hdig : l.digest
      = sha256_bytes (layer_blob_bytes f.relPath f.content f.mtime t) := by
    rw [← hf]
    simp only [create_layer_blob]
  have hsplit : (splitAll 58 l.digest).get? 1
      = some (sha256Hex (layer_blob_bytes f.relPath f.content f.mtime t)) := by
    rw [hdig]
    exact splitColon_sha256_bytes _
  have hkeymem : sha256Hex (layer_blob_bytes f.relPath f.content f.mtime t)
      ∈ (packageBlobFs files config t).map Prod.fst := by
    have hw : (sha256Hex (layer_blob_bytes f.relPath f.content f.mtime t),
               layer_blob_bytes f.relPath f.content f.mtime t)
        ∈ packageBlobWrites files t := by
      rw [packageBlobWrites]
      exact List.mem_map.mpr ⟨f, hfmem, rfl⟩
    exact packageBlobFs_layer_key2 files config t _ _ hw
  obtain ⟨e, he⟩ := package_blob_lookup files config t _ hkeymem
  obtain ⟨hmem, hname⟩ := findLastEntry_mem he
  obtain ⟨hfile, hhash⟩ := package_blob_entry_spec files config t e hmem _ hname
  have hbytes : sha256_bytes e.content = l.digest := by
    rw [sha256_bytes_eq, hhash, hdig, sha256_bytes_eq]
  rw [checkLayer, lookLast_layerDescriptor_digest]
  simp only []
  rw [hsplit]
  simp only []
  rw [he]
  simp only []
  rw [if_pos hfile]
  rw [show (sha256_bytes e.content == l.digest) = true by
    rw [hbytes]; exact beq_self_eq_true _]

/-- If every layer checks out individually, the verification loop
returns one `(digest, True)` pair per layer, in order. -/
theorem mapM_checkLayer_all (archive : Archive) (layers : List ModelLayer)
    (h : ∀ l ∈ layers, checkLayer archive (layerDescriptor l) = Except.ok (l.digest, true)) :
    (layers.map layerDescriptor).mapM (checkLayer archive)
      = Except.ok (layers.map (fun l => (l.digest, true))) := by
  induction layers with
  | nil => rfl
  | cons l ls ih =>
      rw [List.map_cons, List.map_cons, List.mapM_cons,
        h l (List.mem_cons_self l ls),
        ih (fun x hx => h x (List.mem_cons_of_mem l hx))]
      rfl

/-- `verify_layers` on a freshly packaged archive succeeds with
`True` for every layer, in manifest order. -/
theorem verify_layers_package (files : List SrcFile) (config : OCIConfig) (t : Nat) :
    verify_layers (package files config t).archive
      = Except.ok ((package files config t).layers.map (fun l => (l.digest, true))) := by
  rw [verify_layers, package_findLast_manifest]
  simp only [if_pos]
  rw [jsonLoads_manifest]
  simp only []
  rw [validate_manifest_json]
  simp only []
  rw [create_manifest_layers, package_layers_eq]
  exact mapM_checkLayer_all _ _ (fun l hl => checkLayer_package files config t l hl)

/-! ## Concrete inputs (the test fixtures of tests/conftest.py) and
small helpers used to state the checked properties. -/

/-- The `sample_config` fixture. -/
def sampleConfig : OCIConfig :=
  { model_name := strBytes "test-model",
    version := strBytes "1.0.0",
    framework := strBytes "pytorch",
    architecture := strBytes "transformer",
    metadata := [(strBytes "author", Json.str (strBytes "test"))] }

/-- The `model_dir` fixture: `weights.bin`, `config.json` and
`tokenizer/vocab.txt` (nested), with distinct small contents. -/
def sampleFiles : List SrcFile :=
  [{ relPath := strBytes "weights.bin", content := [0, 1, 2, 3], mtime := 701 },
   { relPath := strBytes "config.json", content := strBytes "cfg", mtime := 700 },
   { relPath := strBytes "tokenizer/vocab.txt", content := strBytes "hello", mtime := 702 }]

/-- A one-file model directory. -/
def oneFile : List SrcFile :=
  [{ relPath := strBytes "weights.bin", content := strBytes "W", mtime := 5 }]

/-- Read a JSON number out of an optional lookup result. -/
def jNum : Option Json → Option Int
  | some (Json.num n) => some n
  | _ => none

/-- Read a JSON string out of an optional lookup result. -/
def jStr : Option Json → Option Bytes
  | some (Json.str s) => some s
  | _ => none

theorem natLE_length (w : Nat) : ∀ n, (natLE w n).length = w := by
  induction w with
  | zero => intro n; rfl
  | succ k ih => intro n; rw [natLE, List.length_cons, ih]

/-- The gzip wrapper adds a fixed 26-byte overhead (10-byte header,
8-byte length prefix of the modelled DEFLATE body, 8-byte trailer), so
the blob length does not depend on the gzip timestamp. -/
theorem layer_blob_bytes_length (a c : Bytes) (m t : Nat) :
    (layer_blob_bytes a c m t).length = (tarSingle a c m).length + 26 := by
  rw [layer_blob_bytes, gzipWrap, deflate]
  simp [natLE_length]
  omega

theorem findLastEntry_singleton_ne {e : Entry} {n : Bytes} (h : ¬e.name = n) :
    findLastEntry [e] n = none := by
  simp [findLastEntry, h]

/-! ## The claims. -/

/-- Claim C2, counterexample: packaging the same directory and config
at two different wall-clock seconds yields manifests with different
layer digests, because the gzip header embeds the timestamp; the
manifests are not structurally identical. -/
theorem spec_C2_digest_timestamp_counterexample :
    (package sampleFiles sampleConfig 0).layers.map ModelLayer.digest
      ≠ (package sampleFiles sampleConfig 1).layers.map ModelLayer.digest := by decide

/-- The config descriptor depends only on the config, not on the
layer list. -/
theorem create_manifest_config (config : OCIConfig) (layers : List ModelLayer) :
    (create_manifest config layers).config
      = [(strBytes "mediaType",
            Json.str (strBytes "application/vnd.oci.image.config.v1+json")),
         (strBytes "digest", Json.str (sha256_bytes (OCIConfig.dumpJson config))),
         (strBytes "size", Json.num ((OCIConfig.dumpJson config).length : Int))] := rfl

/-- Claim C2 (amended): packaging twice with the same gzip timestamp
is fully deterministic, and even across different timestamps the
layer count, the layer ordering and titles (annotations), the layer
sizes and the config descriptor all agree; only the digests (and so
the blob bytes) vary with the timestamp. -/
theorem spec_C2_manifest_determinism (files : List SrcFile) (config : OCIConfig)
    (t1 t2 : Nat) :
    (t1 = t2 → package files config t1 = package files config t2)
    ∧ (package files config t1).layers.length = (package files config t2).layers.length
    ∧ (package files config t1).layers.map ModelLayer.annotations
        = (package files config t2).layers.map ModelLayer.annotations
    ∧ (package files config t1).layers.map ModelLayer.size
        = (package files config t2).layers.map ModelLayer.size
    ∧ (package files config t1).manifest.config
        = (package files config t2).manifest.config := by
  refine ⟨fun h => by rw [h], ?_, ?_, ?_, ?_⟩
  · rw [package_layers_eq, package_layers_eq, packageLayers, packageLayers,
        List.length_map, List.length_map]
  · rw [package_layers_eq, package_layers_eq, packageLayers, packageLayers,
        List.map_map, List.map_map]
    apply List.map_congr_left
    intro f _
    show (create_layer_blob f.relPath f.content f.mtime t1).annotations
        = (create_layer_blob f.relPath f.content f.mtime t2).annotations
    simp only [create_layer_blob]
  · rw [package_layers_eq, package_layers_eq, packageLayers, packageLayers,
        List.map_map, List.map_map]
    apply List.map_congr_left
    intro f _
    show (create_layer_blob f.relPath f.content f.mtime t1).size
        = (create_layer_blob f.relPath f.content f.mtime t2).size
    simp only [create_layer_blob]
    rw [layer_blob_bytes_length, layer_blob_bytes_length]
  · rw [package_manifest_eq, package_manifest_eq,
        create_manifest_config, create_manifest_config]

/-- Claim C2 witness: the amended determinism at the fixtures, with
the equal-timestamp hypothesis discharged at 5 = 5 and the
timestamp-independent parts taken across timestamps 5 and 6. -/
theorem spec_C2_witness :
    package sampleFiles sampleConfig 5 = package sampleFiles sampleConfig 5
    ∧ (package sampleFiles sampleConfig 5).layers.length
        = (package sampleFiles sampleConfig 6).layers.length
    ∧ (package sampleFiles sampleConfig 5).layers.map ModelLayer.annotations
        = (package sampleFiles sampleConfig 6).layers.map ModelLayer.annotations
    ∧ (package sampleFiles sampleConfig 5).layers.map ModelLayer.size
        = (package sampleFiles sampleConfig 6).layers.map ModelLayer.size
    ∧ (package sampleFiles sampleConfig 5).manifest.config
        = (package sampleFiles sampleConfig 6).manifest.config :=
  ⟨(spec_C2_manifest_determinism sampleFiles sampleConfig 5 5).1 rfl,
   (spec_C2_manifest_determinism sampleFiles sampleConfig 5 6).2.1,
   (spec_C2_manifest_determinism sampleFiles sampleConfig 5 6).2.2.1,
   (spec_C2_manifest_determinism sampleFiles sampleConfig 5 6).2.2.2.1,
   (spec_C2_manifest_determinism sampleFiles sampleConfig 5 6).2.2.2.2⟩

/-- Claim C7: every layer digest is computed over the compressed blob
bytes as stored (every staged blob's name is the hash of its bytes),
each packaged layer's blob entry re-verifies against its recorded
digest, and `verify_layers` on a freshly packaged archive returns
`True` for every layer, in manifest order. -/
theorem spec_C7_digest_over_stored_bytes (files : List SrcFile) (config : OCIConfig)
    (t : Nat) :
    (∀ p ∈ packageBlobFs files config t, sha256Hex p.2 = p.1)
    ∧ (∀ l ∈ (package files config t).layers,
        checkLayer (package files config t).archive (layerDescriptor l)
          = Except.ok (l.digest, true))
    ∧ verify_layers (package files config t).archive
        = Except.ok ((package files config t).layers.map (fun l => (l.digest, true))) :=
  ⟨packageBlobFs_hash files config t,
   fun l hl => checkLayer_package files config t l
     (by rw [package_layers_eq] at hl; exact hl),
   verify_layers_package files config t⟩

/-- Claim C7 witness: the layer of a one-file package verifies, and
the whole verification loop returns `True` for it. -/
theorem spec_C7_witness :
    create_layer_blob (strBytes "weights.bin") (strBytes "W") 5 0
       ∈ (package oneFile sampleConfig 0).layers
    ∧ checkLayer (package oneFile sampleConfig 0).archive
        (layerDescriptor (create_layer_blob (strBytes "weights.bin") (strBytes "W") 5 0))
      = Except.ok ((create_layer_blob (strBytes "weights.bin") (strBytes "W") 5 0).digest, true)
    ∧ verify_layers (package oneFile sampleConfig 0).archive
        = Except.ok ((package oneFile sampleConfig 0).layers.map (fun l => (l.digest, true))) :=
  have hmem : create_layer_blob (strBytes "weights.bin") (strBytes "W") 5 0
      ∈ (package oneFile sampleConfig 0).layers := by
    rw [show (package oneFile sampleConfig 0).layers
        = [create_layer_blob (strBytes "weights.bin") (strBytes "W") 5 0] from rfl]
    exact List.mem_cons_self _ _
  ⟨hmem,
   (spec_C7_digest_over_stored_bytes oneFile sampleConfig 0).2.1 _ hmem,
   (spec_C7_digest_over_stored_bytes oneFile sampleConfig 0).2.2⟩

/-- Claim C8: the manifest has one layer per regular file discovered
under the source directory (for every N ≥ 0), the layer list is
exactly the files in sorted order of their full relative paths (the
lexicographic byte order of `sorted(Path.rglob("*"))`), and the
empty directory still packages into an archive that unpacks. -/
theorem spec_C8_layer_per_file_sorted (files : List SrcFile) (config : OCIConfig)
    (t : Nat) :
    (package files config t).manifest.layers.length = files.length
    ∧ (package files config t).layers
        = (sortFiles files).map (fun f => create_layer_blob f.relPath f.content f.mtime t)
    ∧ List.Sorted fileLe (sortFiles files)
    ∧ (sortFiles files).length = files.length
    ∧ unpack (package [] config t).archive = Except.ok config := by
  refine ⟨?_, rfl, sortFiles_sorted files, sortFiles_length files,
    unpack_package [] config t⟩
  rw [package_manifest_eq]
  show ((packageLayers files t).map layerDescriptor).length = files.length
  rw [List.length_map, packageLayers, List.length_map, sortFiles_length]

/-- Claim C9: `add_layer` appends exactly one content-addressed blob
entry to the archive and returns the layer descriptor of the file,
without touching the recorded `manifest.json` or `config.json`
members. -/
theorem spec_C9_add_layer_frame (archive : Archive) (fileName content : Bytes)
    (fileMtime gzMtime : Nat) :
    (add_layer archive fileName content fileMtime gzMtime).1
      = archive
        ++ [⟨LAYERS_DIR
               ++ 47 :: sha256Hex (layer_blob_bytes fileName content fileMtime gzMtime),
             true, layer_blob_bytes fileName content fileMtime gzMtime⟩]
    ∧ (add_layer archive fileName content fileMtime gzMtime).2
        = create_layer_blob fileName content fileMtime gzMtime
    ∧ findLastEntry (add_layer archive fileName content fileMtime gzMtime).1
        MANIFEST_FILENAME = findLastEntry archive MANIFEST_FILENAME
    ∧ findLastEntry (add_layer archive fileName content fileMtime gzMtime).1
        CONFIG_FILENAME = findLastEntry archive CONFIG_FILENAME := by
  refine ⟨rfl, rfl, ?_, ?_⟩
  · rw [show (add_layer archive fileName content fileMtime gzMtime).1
        = archive
          ++ [⟨LAYERS_DIR
                 ++ 47 :: sha256Hex (layer_blob_bytes fileName content fileMtime gzMtime),
               true, layer_blob_bytes fileName content fileMtime gzMtime⟩] from rfl,
      findLastEntry_append,
      findLastEntry_singleton_ne (blobName_ne_manifest _)]
  · rw [show (add_layer archive fileName content fileMtime gzMtime).1
        = archive
          ++ [⟨LAYERS_DIR
                 ++ 47 :: sha256Hex (layer_blob_bytes fileName content fileMtime gzMtime),
               true, layer_blob_bytes fileName content fileMtime gzMtime⟩] from rfl,
      findLastEntry_append,
      findLastEntry_singleton_ne (blobName_ne_config _)]

/-- Claim C1: code bug.  `package` serializes the config with
`indent=2` into the config blob and root `config.json` (155 bytes at
the fixture), but `create_manifest` recomputes digest and size over
the *compact* serialization (125 bytes), so the manifest's config
descriptor matches neither the size nor the digest of the config
bytes actually stored in the archive. -/
theorem spec_C1_config_descriptor_mismatch :
    (findLastEntry (package sampleFiles sampleConfig 0).archive CONFIG_FILENAME).map
        Entry.content = some (package sampleFiles sampleConfig 0).config_bytes
    ∧ jNum (lookLast (package sampleFiles sampleConfig 0).manifest.config
        (strBytes "size")) = some 125
    ∧ (package sampleFiles sampleConfig 0).config_bytes.length = 155
    ∧ jNum (lookLast (package sampleFiles sampleConfig 0).manifest.config
          (strBytes "size"))
        ≠ some ((package sampleFiles sampleConfig 0).config_bytes.length : Int)
    ∧ jStr (lookLast (package sampleFiles sampleConfig 0).manifest.config
          (strBytes "digest"))
        ≠ some (sha256_bytes (package sampleFiles sampleConfig 0).config_bytes) := by
  refine ⟨?_, by decide, by decide, by decide, by decide⟩
  rw [package_findLast_config]
  rfl

/-- An archive holding a parent-directory-traversing member next to a
well-formed `config.json`. -/
def evilArchive : Archive :=
  [⟨strBytes "../evil", true, strBytes "x"⟩,
   ⟨CONFIG_FILENAME, true, OCIConfig.dumpJsonIndent2 sampleConfig⟩]

/-- Claim C4: code bug.  `unpack` calls `extractall` with no filter
argument and no path check, so an archive member named `../evil` is
extracted without being rejected or neutralized: `unpack` succeeds,
the member is among the files written, and its write path resolves
outside the output directory. -/
theorem spec_C4_traversal_escape :
    unpack evilArchive = Except.ok sampleConfig
    ∧ strBytes "../evil" ∈ writtenFiles evilArchive
    ∧ resolvedDest (strBytes "/out") (strBytes "../evil") = [strBytes "evil"]
    ∧ underDir (strBytes "/out")
        (resolvedDest (strBytes "/out") (strBytes "../evil")) = false := by
  refine ⟨?_, by decide, by decide, by decide⟩
  rw [unpack,
    show findLastEntry evilArchive CONFIG_FILENAME
      = some ⟨CONFIG_FILENAME, true, OCIConfig.dumpJsonIndent2 sampleConfig⟩ from rfl]
  simp only [if_pos]
  rw [jsonLoads_config]
  simp only []
  rw [validate_config_json]

/-- Claim C5: code bug.  The `manifest.json` written by `package`
parses as an object whose keys are the pydantic snake_case field
names `schema_version` and `media_type`; the OCI keys
`schemaVersion` and `mediaType` promised by the spec (and by the
docstring of `OCIManifest`) are absent.  The values behind the
snake_case keys are the fixed 2 and the OCI manifest media type. -/
theorem spec_C5_manifest_keys_snake_case (files : List SrcFile) (config : OCIConfig)
    (t : Nat) :
    findLastEntry (package files config t).archive MANIFEST_FILENAME
      = some ⟨MANIFEST_FILENAME, true,
          OCIManifest.dumpJsonIndent2 (create_manifest config (packageLayers files t))⟩
    ∧ ∃ kvs : List (Bytes × Json),
        jsonLoads (OCIManifest.dumpJsonIndent2
            (create_manifest config (packageLayers files t)))
          = some (Json.obj kvs)
        ∧ kvs.map Prod.fst
            = [strBytes "schema_version", strBytes "media_type",
               strBytes "config", strBytes "layers"]
        ∧ lookLast kvs (strBytes "schemaVersion") = none
        ∧ lookLast kvs (strBytes "mediaType") = none
        ∧ jNum (lookLast kvs (strBytes "schema_version")) = some 2
        ∧ jStr (lookLast kvs (strBytes "media_type"))
            = some (strBytes "application/vnd.oci.image.manifest.v1+json") := by
  refine ⟨package_findLast_manifest files config t,
    _, jsonLoads_manifest _, ?_, ?_, ?_, ?_, ?_⟩ <;> rfl

/-! ## Counting the archive members (claims C3 and C10). -/

theorem isPrefixOf_append_self (l r : Bytes) : l.isPrefixOf (l ++ r) = true := by
  induction l with
  | nil => simp [List.isPrefixOf]
  | cons a t ih => simp [List.isPrefixOf, List.cons_append, ih]

theorem map_fst_append_single (w : List (Bytes × Bytes)) (k c : Bytes) :
    (w ++ [(k, c)]).map Prod.fst = w.map Prod.fst ++ [k] := by
  rw [List.map_append]
  rfl

theorem blobPre_blobName (h : Bytes) :
    (LAYERS_DIR ++ [47]).isPrefixOf (LAYERS_DIR ++ 47 :: h) = true := by
  rw [show LAYERS_DIR ++ 47 :: h = (LAYERS_DIR ++ [47]) ++ h by simp]
  exact isPrefixOf_append_self _ _

theorem sortByName_keys_perm (fs : List (Bytes × Bytes)) :
    ((sortByName fs).map Prod.fst).Perm (fs.map Prod.fst) :=
  (List.perm_insertionSort nameLe fs).map Prod.fst

/-- With pairwise-distinct blob names, the staged blob keys are
exactly the blob names `package` writes. -/
theorem packageBlobFs_keys (files : List SrcFile) (config : OCIConfig) (t : Nat)
    (hnd : (packageBlobNames files config t).Nodup) :
    (packageBlobFs files config t).map Prod.fst = packageBlobNames files config t := by
  rw [packageBlobFs_eq files config t hnd, map_fst_append_single, packageBlobNames]

theorem packageBlobFs_length (files : List SrcFile) (config : OCIConfig) (t : Nat)
    (hnd : (packageBlobNames files config t).Nodup) :
    (packageBlobFs files config t).length = files.length + 1 := by
  rw [packageBlobFs_eq files config t hnd, List.length_append, packageBlobWrites,
      List.length_map, sortFiles_length]
  rfl

theorem sorted_blob_keys_nodup (files : List SrcFile) (config : OCIConfig) (t : Nat)
    (hnd : (packageBlobNames files config t).Nodup) :
    ((sortByName (packageBlobFs files config t)).map Prod.fst).Nodup :=
  (sortByName_keys_perm (packageBlobFs files config t)).nodup_iff.mpr
    (by rw [packageBlobFs_keys files config t hnd]; exact hnd)

/-- Claim C3, counterexample: a one-file directory round-trips to the
original config but leaves four regular files in the output
directory (layer blob, config blob, `config.json`, `manifest.json`),
not N + 2 = 3 as claimed. -/
theorem spec_C3_filecount_counterexample :
    unpack (package oneFile sampleConfig 0).archive = Except.ok sampleConfig
    ∧ (writtenFiles (package oneFile sampleConfig 0).archive).length = 4
    ∧ (writtenFiles (package oneFile sampleConfig 0).archive).length
        ≠ oneFile.length + 2 :=
  ⟨unpack_package oneFile sampleConfig 0, by decide, by decide⟩

/-- Claim C3 (amended): for a directory of N regular files whose blob
names do not collide, `unpack (package dir config) out` returns the
original config and the output directory then holds exactly N + 3
regular files: N layer blobs, the config blob, `config.json` and
`manifest.json`. -/
theorem spec_C3_roundtrip_filecount (files : List SrcFile) (config : OCIConfig)
    (t : Nat) (hnd : (packageBlobNames files config t).Nodup) :
    unpack (package files config t).archive = Except.ok config
    ∧ (writtenFiles (package files config t).archive).length = files.length + 3 := by
  refine ⟨unpack_package files config t, ?_⟩
  have hfilter : (package files config t).archive.filter (fun e => e.isFile)
      = (sortByName (packageBlobFs files config t)).map
          (fun nc => (⟨LAYERS_DIR ++ 47 :: nc.1, true, nc.2⟩ : Entry))
        ++ [⟨CONFIG_FILENAME, true, OCIConfig.dumpJsonIndent2 config⟩,
            ⟨MANIFEST_FILENAME, true,
              OCIManifest.dumpJsonIndent2
                (create_manifest config (packageLayers files t))⟩] := by
    rw [package_archive_eq]
    rw [show ∀ l : Archive, List.filter (fun e => e.isFile)
          ((⟨[], false, []⟩ : Entry) :: ⟨strBytes "blobs", false, []⟩
            :: ⟨LAYERS_DIR, false, []⟩ :: l)
        = List.filter (fun e => e.isFile) l from fun l => rfl]
    refine List.filter_eq_self.mpr (fun e he => ?_)
    rcases List.mem_append.mp he with he | he
    · obtain ⟨nc, _, hnc⟩ := List.mem_map.mp he
      rw [← hnc]
    · rcases List.mem_cons.mp he with rfl | he
      · rfl
      rcases List.mem_cons.mp he with rfl | he
      · rfl
      · simp at he
  rw [writtenFiles, hfilter, List.map_append, List.map_map]
  have hblob : (sortByName (packageBlobFs files config t)).map
        (Entry.name ∘ fun nc => (⟨LAYERS_DIR ++ 47 :: nc.1, true, nc.2⟩ : Entry))
      = ((sortByName (packageBlobFs files config t)).map Prod.fst).map
          (fun k => LAYERS_DIR ++ 47 :: k) := by
    rw [List.map_map]
    exact List.map_congr_left fun nc _ => rfl
  rw [hblob]
  have hnames : (((sortByName (packageBlobFs files config t)).map Prod.fst).map
        (fun k => LAYERS_DIR ++ 47 :: k)
      ++ List.map Entry.name
          [⟨CONFIG_FILENAME, true, OCIConfig.dumpJsonIndent2 config⟩,
           ⟨MANIFEST_FILENAME, true,
             OCIManifest.dumpJsonIndent2
               (create_manifest config (packageLayers files t))⟩]).Nodup := by
    rw [show List.map Entry.name
          [(⟨CONFIG_FILENAME, true, OCIConfig.dumpJsonIndent2 config⟩ : Entry),
           ⟨MANIFEST_FILENAME, true,
             OCIManifest.dumpJsonIndent2
               (create_manifest config (packageLayers files t))⟩]
        = [CONFIG_FILENAME, MANIFEST_FILENAME] from rfl]
    refine List.nodup_append.mpr
      ⟨List.Nodup.map (fun a b h => blobName_inj h)
          (sorted_blob_keys_nodup files config t hnd),
        by decide, ?_⟩
    intro a ha1 ha2
    obtain ⟨k, _, hk⟩ := List.mem_map.mp ha1
    rcases List.mem_cons.mp ha2 with h | h
    · exact blobName_ne_config k (hk.trans h)
    rcases List.mem_cons.mp h with h | h
    · exact blobName_ne_manifest k (hk.trans h)
    · simp at h
  rw [List.dedup_eq_self.mpr hnames, List.length_append, List.length_map,
      List.length_map, sortByName_length,
      packageBlobFs_length files config t hnd,
      show (List.map Entry.name
          [(⟨CONFIG_FILENAME, true, OCIConfig.dumpJsonIndent2 config⟩ : Entry),
           ⟨MANIFEST_FILENAME, true,
             OCIManifest.dumpJsonIndent2
               (create_manifest config (packageLayers files t))⟩]).length = 2 from rfl]

/-- Claim C3 witness: the amended round-trip and file count at the
one-file fixture, with the no-collision hypothesis checked by
computation. -/
theorem spec_C3_witness :
    (packageBlobNames oneFile sampleConfig 0).Nodup
    ∧ (unpack (package oneFile sampleConfig 0).archive = Except.ok sampleConfig
       ∧ (writtenFiles (package oneFile sampleConfig 0).archive).length
           = oneFile.length + 3) :=
  ⟨by decide, spec_C3_roundtrip_filecount oneFile sampleConfig 0 (by decide)⟩

theorem upsert_mem_self (fs : List (Bytes × Bytes)) (n c : Bytes) :
    (n, c) ∈ upsert fs n c := by
  induction fs with
  | nil => exact List.mem_singleton_self _
  | cons p t ih =>
      obtain ⟨pn, pc⟩ := p
      show (n, c) ∈ if pn = n then (pn, c) :: t else (pn, pc) :: upsert t n c
      by_cases h : pn = n
      · rw [if_pos h, h]
        exact List.mem_cons_self _ _
      · rw [if_neg h]
        exact List.mem_cons_of_mem _ ih

theorem mem_map_blobEntry {fs : List (Bytes × Bytes)} {k c : Bytes}
    (h : (k, c) ∈ fs) :
    (⟨LAYERS_DIR ++ 47 :: k, true, c⟩ : Entry)
      ∈ fs.map (fun nc => (⟨LAYERS_DIR ++ 47 :: nc.1, true, nc.2⟩ : Entry)) :=
  List.mem_map.mpr ⟨(k, c), h, rfl⟩

theorem countP_blobMap (fs : List (Bytes × Bytes)) :
    List.countP (fun e => (LAYERS_DIR ++ [47]).isPrefixOf e.name)
        (fs.map (fun nc => (⟨LAYERS_DIR ++ 47 :: nc.1, true, nc.2⟩ : Entry)))
      = fs.length := by
  induction fs with
  | nil => rfl
  | cons p t ih =>
      rw [List.map_cons, List.countP_cons, ih]
      simp [blobPre_blobName p.1]

/-- Claim C10: with pairwise-distinct blob names, the archive
produced by `package` holds exactly N + 1 members under
`blobs/sha256/` (one layer blob per source file plus the config
blob), the config blob is stored under the hex digest of the
serialized config bytes with those bytes as content, and
`config.json` and `manifest.json` sit at the root beside them. -/
theorem spec_C10_blob_count (files : List SrcFile) (config : OCIConfig) (t : Nat)
    (hnd : (packageBlobNames files config t).Nodup) :
    ((package files config t).archive.countP
        (fun e => (LAYERS_DIR ++ [47]).isPrefixOf e.name)) = files.length + 1
    ∧ (⟨LAYERS_DIR ++ 47 :: sha256Hex (OCIConfig.dumpJsonIndent2 config), true,
        OCIConfig.dumpJsonIndent2 config⟩ : Entry) ∈ (package files config t).archive
    ∧ findLastEntry (package files config t).archive CONFIG_FILENAME
        = some ⟨CONFIG_FILENAME, true, OCIConfig.dumpJsonIndent2 config⟩
    ∧ findLastEntry (package files config t).archive MANIFEST_FILENAME
        = some ⟨MANIFEST_FILENAME, true,
            OCIManifest.dumpJsonIndent2
              (create_manifest config (packageLayers files t))⟩ := by
  refine ⟨?_, ?_, package_findLast_config files config t,
    package_findLast_manifest files config t⟩
  · rw [package_archive_eq]
    show List.countP (fun e => (LAYERS_DIR ++ [47]).isPrefixOf e.name)
        ((sortByName (packageBlobFs files config t)).map
            (fun nc => (⟨LAYERS_DIR ++ 47 :: nc.1, true, nc.2⟩ : Entry))
          ++ [⟨CONFIG_FILENAME, true, OCIConfig.dumpJsonIndent2 config⟩,
              ⟨MANIFEST_FILENAME, true,
                OCIManifest.dumpJsonIndent2
                  (create_manifest config (packageLayers files t))⟩])
      = files.length + 1
    have h2 : List.countP (fun e => (LAYERS_DIR ++ [47]).isPrefixOf e.name)
        [(⟨CONFIG_FILENAME, true, OCIConfig.dumpJsonIndent2 config⟩ : Entry),
         ⟨MANIFEST_FILENAME, true,
           OCIManifest.dumpJsonIndent2
             (create_manifest config (packageLayers files t))⟩] = 0 := by rfl
    rw [List.countP_append, countP_blobMap, sortByName_length,
        packageBlobFs_length files config t hnd, h2]
  · rw [package_archive_eq]
    refine List.mem_cons_of_mem _ (List.mem_cons_of_mem _ (List.mem_cons_of_mem _
      (List.mem_append_left _ ?_)))
    apply mem_map_blobEntry
    apply sortByName_mem.mpr
    rw [packageBlobFs]
    exact upsert_mem_self _ _ _

/-- Claim C10 witness: the blob count at the one-file fixture, with
the no-collision hypothesis checked by computation. -/
theorem spec_C10_witness :
    (packageBlobNames oneFile sampleConfig 0).Nodup
    ∧ ((package oneFile sampleConfig 0).archive.countP
        (fun e => (LAYERS_DIR ++ [47]).isPrefixOf e.name)) = oneFile.length + 1 :=
  ⟨by decide, (spec_C10_blob_count oneFile sampleConfig 0 (by decide)).1⟩

/-! ## The per-layer verification contract (claim C6). -/

/-- The spec's description of one verification result: if the
content-addressed entry is absent or unreadable the result is
`(digest, False)`; otherwise `True` iff the recomputed digest of the
entry's bytes equals the expected digest exactly. -/
def layerResult (archive : Archive) (s hex : Bytes) : Bytes × Bool :=
  match findLastEntry archive (LAYERS_DIR ++ 47 :: hex) with
  | none => (s, false)
  | some e => if e.isFile then (s, sha256_bytes e.content == s) else (s, false)

/-- The result the spec predicts for a whole layer descriptor (the
fallback values are never reached under the claim's hypotheses). -/
def specLayerCheck (archive : Archive) (d : List (Bytes × Json)) : Bytes × Bool :=
  match lookLast d (strBytes "digest") with
  | some (Json.str s) =>
    match (splitAll 58 s).get? 1 with
    | some hex => layerResult archive s hex
    | none => ([], false)
  | _ => ([], false)

/-- `checkLayer` follows the spec's per-layer semantics whenever the
descriptor holds a string digest containing a colon. -/
theorem checkLayer_ok {archive : Archive} {desc : List (Bytes × Json)} {s hex : Bytes}
    (hd : lookLast desc (strBytes "digest") = some (Json.str s))
    (hx : (splitAll 58 s).get? 1 = some hex) :
    checkLayer archive desc = Except.ok (layerResult archive s hex) := by
  rw [checkLayer, hd]
  simp only []
  rw [hx]
  simp only []
  rw [layerResult]
  cases hf : findLastEntry archive (LAYERS_DIR ++ 47 :: hex) with
  | none => rfl
  | some e =>
      simp only []
      cases hb : e.isFile with
      | true => rw [if_pos rfl, if_pos rfl]
      | false => rw [if_neg Bool.false_ne_true, if_neg Bool.false_ne_true]

theorem mapM_ok_of_pointwise {ε α β : Type} (f : α → Except ε β) (g : α → β) :
    ∀ l : List α, (∀ a ∈ l, f a = Except.ok (g a)) →
      l.mapM f = Except.ok (l.map g) := by
  intro l
  induction l with
  | nil => intro h; rfl
  | cons a t ih =>
      intro h
      rw [List.mapM_cons, h a (List.mem_cons_self a t),
        ih (fun x hx => h x (List.mem_cons_of_mem a hx)), List.map_cons]
      rfl

/-- A manifest whose single layer descriptor has no digest key. -/
def noDigestManifest : OCIManifest :=
  { config := [], layers := [[]] }

/-- An archive holding only that manifest. -/
def noDigestArchive : Archive :=
  [⟨MANIFEST_FILENAME, true, OCIManifest.dumpJsonIndent2 noDigestManifest⟩]

/-- Claim C6, counterexample: on an archive whose manifest has a
digest-less layer descriptor, `verify_layers` does not return a
`(digest, False)` pair for it — the loop body's `layer_desc["digest"]`
raises `KeyError` before any result is produced. -/
theorem spec_C6_missing_digest_counterexample :
    verify_layers noDigestArchive = Except.error VerifyErr.keyErr := by
  rw [verify_layers,
    show findLastEntry noDigestArchive MANIFEST_FILENAME
      = some ⟨MANIFEST_FILENAME, true,
          OCIManifest.dumpJsonIndent2 noDigestManifest⟩ from rfl]
  simp only [if_pos]
  rw [jsonLoads_manifest]
  simp only []
  rw [validate_manifest_json]
  simp only []
  rfl

/-- Claim C6 (amended): when the archive has a readable manifest and
every layer descriptor holds a string digest containing a colon,
`verify_layers` returns exactly one `(digest, bool)` pair per
manifest layer, in manifest order, each following the documented
absent-or-unreadable/recomputed-digest semantics
(`specLayerCheck`/`layerResult`); a descriptor without such a digest
instead raises (see the counterexample). -/
theorem spec_C6_verify_semantics (archive : Archive) (m : Entry)
    (manifest : OCIManifest) (j : Json)
    (hfind : findLastEntry archive MANIFEST_FILENAME = some m)
    (hfile : m.isFile = true)
    (hload : jsonLoads m.content = some j)
    (hval : OCIManifest.validate j = some manifest)
    (hdig : ∀ d ∈ manifest.layers, ∃ s hex,
        lookLast d (strBytes "digest") = some (Json.str s)
        ∧ (splitAll 58 s).get? 1 = some hex) :
    verify_layers archive = Except.ok (manifest.layers.map (specLayerCheck archive))
    ∧ (manifest.layers.map (specLayerCheck archive)).length = manifest.layers.length
    ∧ ∀ d ∈ manifest.layers, ∀ s hex : Bytes,
        lookLast d (strBytes "digest") = some (Json.str s) →
        (splitAll 58 s).get? 1 = some hex →
        specLayerCheck archive d = layerResult archive s hex := by
  refine ⟨?_, List.length_map _ _, ?_⟩
  · rw [verify_layers, hfind]
    simp only []
    rw [if_pos hfile, hload]
    simp only []
    rw [hval]
    simp only []
    apply mapM_ok_of_pointwise
    intro d hd
    obtain ⟨s, hex, hs, hx⟩ := hdig d hd
    rw [show specLayerCheck archive d = layerResult archive s hex from by
      rw [specLayerCheck, hs]; simp only []; rw [hx]]
    exact checkLayer_ok hs hx
  · intro d _ s hex hs hx
    rw [specLayerCheck, hs]
    simp only []
    rw [hx]

/-- A well-formed manifest whose single layer names a blob that is
not in the archive. -/
def missingBlobManifest : OCIManifest :=
  { config := [],
    layers := [[(strBytes "digest", Json.str (strBytes "sha256:abc"))]] }

/-- An archive holding only that manifest. -/
def missingBlobArchive : Archive :=
  [⟨MANIFEST_FILENAME, true, OCIManifest.dumpJsonIndent2 missingBlobManifest⟩]

/-- Claim C6 witness: the amended semantics at a concrete archive
whose one layer names an absent blob; the loop returns the single
pair `("sha256:abc", False)` without raising. -/
theorem spec_C6_witness :
    (verify_layers missingBlobArchive
        = Except.ok (missingBlobManifest.layers.map (specLayerCheck missingBlobArchive))
      ∧ (missingBlobManifest.layers.map (specLayerCheck missingBlobArchive)).length
          = missingBlobManifest.layers.length
      ∧ ∀ d ∈ missingBlobManifest.layers, ∀ s hex : Bytes,
          lookLast d (strBytes "digest") = some (Json.str s) →
          (splitAll 58 s).get? 1 = some hex →
          specLayerCheck missingBlobArchive d = layerResult missingBlobArchive s hex)
    ∧ missingBlobManifest.layers.map (specLayerCheck missingBlobArchive)
        = [(strBytes "sha256:abc", false)] :=
  ⟨spec_C6_verify_semantics missingBlobArchive
      ⟨MANIFEST_FILENAME, true, OCIManifest.dumpJsonIndent2 missingBlobManifest⟩
      missingBlobManifest missingBlobManifest.json
      rfl rfl (jsonLoads_manifest missingBlobManifest)
      (validate_manifest_json missingBlobManifest)
      (by
        intro d hd
        rw [show missingBlobManifest.layers
            = [[(strBytes "digest", Json.str (strBytes "sha256:abc"))]] from rfl,
          List.mem_singleton] at hd
        subst hd
        exact ⟨strBytes "sha256:abc", strBytes "abc", rfl, rfl⟩),
   by rfl⟩

end ModelOCI
